import Mathlib
/-!
Verification of the CGAL `Compact_container_with_index_2` data structure
(file `Compact_container_with_index_2.h`), shallowly embedded in Lean.

The container is instantiated at the default `IndexType = std::size_t`,
a 64-bit unsigned integer.  Machine words are modelled as `Nat` with an
explicit `% 2 ^ 64` wherever the C++ code can overflow.  The buffer
`all_items` (a raw array of `capacity_` objects of type `T`) is modelled
as a `List` of slots; each slot is a value of type `T`, which must donate
one integer field (`for_compact_container`, read and written through
`Compact_container_with_index_traits`).  We model `T` as a record `Elt`
holding that integer field (`word`) plus an opaque payload.
-/

namespace CCWI

/-- Number of bits of `size_type` (`std::size_t` on a 64-bit platform). -/
def wordBits : Nat := 64

/-- `mask_type = ((size_type)-1)-(((size_type)-1)/2)`: the most significant bit. -/
def mask_type : Nat := 2 ^ 63

/-- `~mask_type` as a 64-bit word: all bits but the most significant one. -/
def mask_rest : Nat := 2 ^ 63 - 1

/-- `bottom = (std::numeric_limits<size_type>::max)()/2`. -/
def bottom : Nat := 2 ^ 63 - 1

/-- `nbbits_size_type_m1 = sizeof(size_type)*8 - 1`. -/
def nbbits_size_type_m1 : Nat := 63

/-- `enum Type { USED = 0, FREE = 1 }`. -/
inductive SlotType where
  | USED
  | FREE
deriving DecidableEq, Repr, Inhabited

/-- The numeric value of the enum, used in the bit-packing. -/
def SlotType.toBit : SlotType → Nat
  | .USED => 0
  | .FREE => 1

/-- A stored object of type `T`: the integer field read and written through
`Compact_container_with_index_traits` (`word`), plus the rest of the object
(`payload`), opaque to the container. -/
structure Elt (α : Type) where
  word : Nat
  payload : α
deriving DecidableEq, Repr, Inhabited

namespace Traits

/-- `Compact_container_with_index_traits::size_t`. -/
def size_t {α : Type} (e : Elt α) : Nat := e.word

end Traits

namespace Traits

/-- `Compact_container_with_index_traits::set_size_t`; the field is a
64-bit machine word, so the stored value is truncated. -/
def set_size_t {α : Type} (e : Elt α) (v : Nat) : Elt α :=
  { e with word := v % 2 ^ 64 }

end Traits

/-- `static_type`: read the most significant bit of the tag word. -/
def static_type {α : Type} (e : Elt α) : SlotType :=
  if (Traits.size_t e &&& mask_type) >>> nbbits_size_type_m1 = 0 then .USED else .FREE

/-- `static_get_val`: the tag word with the most significant bit removed. -/
def static_get_val {α : Type} (e : Elt α) : Nat :=
  Traits.size_t e &&& mask_rest

/-- `static_set_val`: overwrite the tag word with `v` plus the type bit. -/
def static_set_val {α : Type} (e : Elt α) (v : Nat) (t : SlotType) : Elt α :=
  Traits.set_size_t e (v ||| (t.toBit <<< nbbits_size_type_m1))

/-- `static_set_type`: keep the value bits, overwrite the type bit. -/
def static_set_type {α : Type} (e : Elt α) (t : SlotType) : Elt α :=
  static_set_val e (Traits.size_t e &&& mask_rest) t

/-- A growth policy (`Increment_policy` template parameter): the first block
size, and the `increase_size` hook which may update `block_size` from the
current `capacity_` and `block_size`. -/
structure Policy where
  first_block_size : Nat
  increase_size : Nat → Nat → Nat

/-- `Multiply_by_two_policy_for_cc_with_size<k>`: `increase_size` sets
`block_size = capacity_`. -/
def Multiply_by_two_policy (k : Nat) : Policy :=
  { first_block_size := k, increase_size := fun cap _ => cap }

/-- `Constant_size_policy_for_cc_with_size<k>`: `increase_size` does nothing. -/
def Constant_size_policy (k : Nat) : Policy :=
  { first_block_size := k, increase_size := fun _ bs => bs }

/-- The state of a `Compact_container_with_index_2`.  The raw buffer
`all_items` (of `capacity_` objects) is a list of slots; uninitialized
memory is modelled by `default`. -/
structure CC (α : Type) where
  capacity_ : Nat
  size_ : Nat
  block_size : Nat
  free_list : Nat
  all_items : List (Elt α)
deriving DecidableEq, Repr

/-- `Index_for_cc_with_index`: an opaque wrapper around the raw index. -/
structure Index_for_cc_with_index where
  m_idx : Nat
deriving DecidableEq, Repr

/-- The default constructor: `m_idx = (max)()/2`, a NULL-like index. -/
def Index_default : Index_for_cc_with_index := ⟨(2 ^ 64 - 1) / 2⟩

/-- `is_valid()`: whether the index differs from the default NULL value. -/
def Index_for_cc_with_index.is_valid (i : Index_for_cc_with_index) : Bool :=
  decide (i.m_idx ≠ (2 ^ 64 - 1) / 2)

variable {α : Type} [Inhabited α]

namespace CC

/-- `operator[]`: read the slot at index `i` (precondition `i < capacity_`;
out-of-range reads are undefined behaviour in the source and return an
arbitrary value here). -/
def get (c : CC α) (i : Nat) : Elt α := c.all_items.getD i default

/-- `type(i)`: the type bit of slot `i`. -/
def type (c : CC α) (i : Nat) : SlotType := static_type (c.get i)

/-- `get_val(i)`: the value bits of slot `i`. -/
def get_val (c : CC α) (i : Nat) : Nat := static_get_val (c.get i)

/-- `is_used(i)`. -/
def is_used (c : CC α) (i : Nat) : Bool := decide (c.type i = SlotType.USED)

/-- `set_val(e, v, t)`: overwrite the tag word of slot `e`. -/
def set_val (c : CC α) (i v : Nat) (t : SlotType) : CC α :=
  { c with all_items := c.all_items.set i (static_set_val (c.get i) v t) }

/-- `put_on_free_list(x)`: link slot `x` to the current free-list head and
make it the new head. -/
def put_on_free_list (c : CC α) (x : Nat) : CC α :=
  let c1 := c.set_val x c.free_list SlotType.FREE
  { c1 with free_list := x }

/-- `init()` and the default constructor: the empty container. -/
def init (p : Policy) : CC α :=
  { capacity_ := 0
    size_ := 0
    block_size := p.first_block_size
    free_list := bottom
    all_items := [] }

/-- The marking loop at the end of `allocate_new_block`: push indices
`oldcap + n - 1, …, oldcap + 1, oldcap` on the free list, in descending
order (the source runs `put_on_free_list` from `capacity_ - 1` down to and
including `oldcapacity`; `n` is the number of newly added slots). -/
def threadFreeDesc (c : CC α) (oldcap : Nat) : Nat → CC α
  | 0 => c
  | Nat.succ m => (c.put_on_free_list (oldcap + m)).threadFreeDesc oldcap m

/-- `allocate_new_block()`: grow the capacity by `block_size`, move used
slots into the fresh buffer at the same indices, copy the value bits of
free slots, thread the new slots on the free list in descending index
order, then let the policy update `block_size`. -/
def allocate_new_block (p : Policy) (c : CC α) : CC α :=
  let oldcapacity := c.capacity_
  let newcap := (c.capacity_ + c.block_size) % 2 ^ 64
  let newItems : List (Elt α) :=
    (List.range newcap).map (fun i =>
      if i < oldcapacity then
        if c.is_used i then c.get i
        else static_set_val default (static_get_val (c.get i)) SlotType.FREE
      else default)
  let c1 : CC α := { c with capacity_ := newcap, all_items := newItems }
  let c2 := c1.threadFreeDesc oldcapacity (newcap - oldcapacity)
  { c2 with block_size := p.increase_size c2.capacity_ c2.block_size }

/-- `insert(t)`: grow if the free list is exhausted, pop the free-list head,
mark the slot used, read the next free index from it, construct `t` in the
slot (overwriting the whole object, tag word included), and bump `size_`. -/
def insert (p : Policy) (c : CC α) (t : Elt α) : CC α × Nat :=
  let c1 := if c.free_list = bottom then c.allocate_new_block p else c
  let ret := c1.free_list
  let e1 := static_set_type (c1.get ret) SlotType.USED
  let newfree := static_get_val e1
  let c2 : CC α :=
    { c1 with
      all_items := (c1.all_items.set ret e1).set ret t
      free_list := newfree
      size_ := (c1.size_ + 1) % 2 ^ 64 }
  (c2, ret)

/-- `emplace(args...)`: identical to `insert` except that the stored object
is constructed in place from `args`; `t` is that constructed object. -/
def emplace (p : Policy) (c : CC α) (t : Elt α) : CC α × Nat :=
  let c1 := if c.free_list = bottom then c.allocate_new_block p else c
  let ret := c1.free_list
  let e1 := static_set_type (c1.get ret) SlotType.USED
  let newfree := static_get_val e1
  let c2 : CC α :=
    { c1 with
      all_items := (c1.all_items.set ret e1).set ret t
      free_list := newfree
      size_ := (c1.size_ + 1) % 2 ^ 64 }
  (c2, ret)

/-- `erase(x)` (precondition, asserted in the source: `type(x) == USED`):
destroy the object (the debug build zeroes the slot with `memset`), push
the slot on the free list, decrement `size_` (64-bit wrap-around). -/
def erase (c : CC α) (x : Nat) : CC α :=
  let c1 : CC α := { c with all_items := c.all_items.set x default }
  let c2 := c1.put_on_free_list x
  { c2 with size_ := (c2.size_ + (2 ^ 64 - 1)) % 2 ^ 64 }

/-- `clear()`: destroy every used slot, deallocate the buffer, and reset all
fields through `init()` (destruction has no effect on the modelled state). -/
def clear (p : Policy) (_c : CC α) : CC α :=
  { capacity_ := 0
    size_ := 0
    block_size := p.first_block_size
    free_list := bottom
    all_items := [] }

/-- `size()`. -/
def size (c : CC α) : Nat := c.size_

/-- `capacity()`. -/
def capacity (c : CC α) : Nat := c.capacity_

/-- `empty()`. -/
def empty (c : CC α) : Bool := decide (c.size_ = 0)

/-- `owns(cit)` for an iterator `cit` of this container sitting at index
`m`: the source first returns `true` if `cit == end()` (that is,
`m == capacity_`); otherwise it checks whether the address of `*cit`
(which is `all_items + m`) lies inside `[all_items, all_items+capacity_)`,
and if so whether slot `m` is used. -/
def owns (c : CC α) (m : Nat) : Bool :=
  if m = c.capacity_ then true
  else if m < c.capacity_ then c.is_used m
  else false

/-- The scanning loop of `CC_iterator_with_index::increment`, structurally:
starting at index `i` with `fuel = capacity_ - i`, advance while the current
index is below `capacity_` and unused.  Returns the first used index at or
after `i`, or `capacity_`. -/
def scanAux (c : CC α) : Nat → Nat → Nat
  | _, 0 => c.capacity_
  | i, Nat.succ fuel => if c.is_used i then i else c.scanAux (i + 1) fuel

/-- First used index at or after `i` (or `capacity_`). -/
def firstUsedFrom (c : CC α) (i : Nat) : Nat :=
  c.scanAux i (c.capacity_ - i)

/-- `CC_iterator_with_index::increment` on an iterator at index `m`
(precondition, asserted: `m < capacity_`): step to `m + 1`, then skip
unused slots, stopping at a used slot or at `capacity_`. -/
def incrementIdx (c : CC α) (m : Nat) : Nat := c.firstUsedFrom (m + 1)

/-- `begin()`: `end()` on an empty container, otherwise an iterator started
at index 0 which immediately skips to the first used slot. -/
def begin_idx (c : CC α) : Nat :=
  if c.size_ = 0 then c.capacity_
  else if c.is_used 0 then 0 else c.incrementIdx 0

/-- The sequence of indices visited by repeatedly applying `increment` from
an iterator at index `m` until `end()` is reached; `fuel` bounds the number
of steps (any `fuel > capacity_ - m` is enough). -/
def visitFromAux (c : CC α) : Nat → Nat → List Nat
  | _, 0 => []
  | m, Nat.succ fuel =>
    if m < c.capacity_ then m :: c.visitFromAux (c.incrementIdx m) fuel else []

/-- Forward iteration: the indices visited from `begin()` to `end()`. -/
def iteration (c : CC α) : List Nat :=
  c.visitFromAux c.begin_idx (c.capacity_ + 1)

/-- The used indices of the container, in ascending order. -/
def usedIndices (c : CC α) : List Nat :=
  (List.range c.capacity_).filter (fun i => c.is_used i)

/-- Hypotheses under which `allocate_new_block` is characterised: the buffer
has `capacity_` slots, the block size is positive, the new capacity stays
within the index range, and the free-list head is a representable value. -/
def GrowOk (c : CC α) : Prop :=
  c.all_items.length = c.capacity_ ∧ 0 < c.block_size ∧
    c.capacity_ + c.block_size ≤ 2 ^ 63 ∧ c.free_list < 2 ^ 63

/-- The state of `allocate_new_block` after the copying loop and the buffer
swap, before the free-list marking loop. -/
def allocPre (c : CC α) : CC α :=
  { c with
    capacity_ := (c.capacity_ + c.block_size) % 2 ^ 64
    all_items :=
      (List.range ((c.capacity_ + c.block_size) % 2 ^ 64)).map (fun i =>
        if i < c.capacity_ then
          if c.is_used i then c.get i
          else static_set_val default (static_get_val (c.get i)) SlotType.FREE
        else default) }

/-- The free-list chain of a container: starting from a head index, the
list of free slots obtained by repeatedly following the value bits, ending
at the `bottom` terminator. -/
inductive FreeChain (c : CC α) : Nat → List Nat → Prop where
  | nil : FreeChain c bottom []
  | cons {h : Nat} {rest : List Nat} :
      h < c.capacity_ → c.is_used h = false →
      FreeChain c (c.get_val h) rest → FreeChain c h (h :: rest)

/-- The invariant of reachable container states: the buffer holds exactly
`capacity_` slots, the capacity stays within the index range, and there is
a duplicate-free free-list chain containing exactly the unused slots, whose
length complements `size_`. -/
structure WF (c : CC α) : Prop where
  len_eq : c.all_items.length = c.capacity_
  cap_le : c.capacity_ ≤ bottom
  free : ∃ L, FreeChain c c.free_list L ∧ L.Nodup ∧
    (∀ i, i < c.capacity_ → (c.is_used i = false ↔ i ∈ L)) ∧
    c.size_ + L.length = c.capacity_

/-- One mutating operation: `insert` of a given object or `erase` of a
given index. -/
inductive Op (β : Type) where
  | ins (t : Elt β)
  | del (x : Nat)

/-- Apply one operation. -/
def applyOp (p : Policy) (c : CC α) : Op α → CC α
  | .ins t => (c.insert p t).1
  | .del x => c.erase x

/-- Run a sequence of operations from a state. -/
def runOps (p : Policy) (c : CC α) : List (Op α) → CC α
  | [] => c
  | op :: ops => runOps p (applyOp p c op) ops

/-- The precondition of one operation on one state: an inserted object
carries a cleared tag bit (its integer field is dedicated to the
container), growth stays within the index range, and an erased index is a
currently-used index (the precondition asserted by the source). -/
def precondOp (c : CC α) : Op α → Bool
  | .ins t => decide (t.word &&& mask_type = 0) &&
      (!decide (c.free_list = bottom) ||
        (decide (0 < c.block_size) && decide (c.capacity_ + c.block_size ≤ bottom)))
  | .del x => decide (x < c.capacity_) && c.is_used x

/-- A run is safe when every operation satisfies its precondition in the
state where it executes. -/
def safeRun (p : Policy) (c : CC α) : List (Op α) → Bool
  | [] => true
  | op :: ops => precondOp c op && safeRun p (applyOp p c op) ops

/-- A pristine state: the shape reached from the fresh container by `n`
insertions and no erasure.  Slots `0, …, n-1` are used; the remaining
slots form the free chain in ascending index order, ending at `bottom`. -/
def Pristine (n : Nat) (c : CC α) : Prop :=
  c.all_items.length = c.capacity_ ∧ n ≤ c.capacity_ ∧ c.capacity_ ≤ bottom ∧
    c.size_ = n ∧
    (∀ i, i < n → c.is_used i = true) ∧
    (∀ i, n ≤ i → i < c.capacity_ →
      (c.get i).word = (if i + 1 = c.capacity_ then bottom else i + 1) + 2 ^ 63) ∧
    c.free_list = (if n = c.capacity_ then bottom else n)

/-- Run a sequence of insertions, collecting the returned indices. -/
def runInserts (p : Policy) (c : CC α) : List (Elt α) → CC α × List Nat
  | [] => (c, [])
  | t :: ts =>
    ((runInserts p (c.insert p t).1 ts).1,
      (c.insert p t).2 :: (runInserts p (c.insert p t).1 ts).2)

end CC

open CC

/-- A concrete instantiation: `Multiply_by_two_policy_for_cc_with_size<2>`. -/
def P2 : Policy := Multiply_by_two_policy 2

/-- Concrete stored objects over `T = Elt Nat` (tag word clear, distinct
payloads). -/
def e1 : Elt Nat := ⟨0, 1⟩

def e2 : Elt Nat := ⟨0, 2⟩

def e3 : Elt Nat := ⟨0, 3⟩

/-- A concrete container holding two elements (capacity 2, full). -/
def cW : CC Nat := runOps P2 (CC.init P2) [Op.ins e1, Op.ins e2]

/-- A concrete container holding one element (capacity 2). -/
def cW1 : CC Nat := runOps P2 (CC.init P2) [Op.ins e1]

/-- A concrete insertion sequence forcing three growth events under `P2`. -/
def ts5 : List (Elt Nat) := [⟨0, 1⟩, ⟨0, 2⟩, ⟨0, 3⟩, ⟨0, 4⟩, ⟨0, 5⟩]

theorem two_pow_63_pos : 0 < (2:Nat) ^ 63 := by positivity

theorem lor_two_pow_eq_add {v : Nat} (hv : v < 2 ^ 63) : v ||| 2 ^ 63 = v + 2 ^ 63 := by
  apply Nat.eq_of_testBit_eq
  intro i
  rcases lt_trichotomy i 63 with h | h | h
  · rw [Nat.testBit_or, Nat.testBit_two_pow_of_ne (by omega), Bool.or_false,
      Nat.add_comm, Nat.testBit_two_pow_add_gt h]
  · subst h
    rw [Nat.testBit_or, Nat.testBit_two_pow_self, Bool.or_true, Nat.add_comm,
      Nat.testBit_two_pow_add_eq, Nat.testBit_lt_two_pow hv]
    rfl
  · have h64 : (2:Nat) ^ 64 ≤ 2 ^ i := Nat.pow_le_pow_right (by norm_num) (by omega)
    have h1 : v ||| 2 ^ 63 < 2 ^ i := by
      refine lt_of_lt_of_le (Nat.or_lt_two_pow (n := 64) ?_ ?_) h64
      · calc v < 2 ^ 63 := hv
          _ < 2 ^ 64 := by norm_num
      · norm_num
    have h2 : v + 2 ^ 63 < 2 ^ i := by
      refine lt_of_lt_of_le ?_ h64
      have : (2:Nat) ^ 64 = 2 ^ 63 + 2 ^ 63 := by norm_num
      omega
    rw [Nat.testBit_lt_two_pow h1, Nat.testBit_lt_two_pow h2]

theorem static_type_eq {α : Type} (e : Elt α) :
    static_type e = if e.word.testBit 63 then SlotType.FREE else SlotType.USED := by
  unfold static_type Traits.size_t mask_type nbbits_size_type_m1
  rw [Nat.and_two_pow, Nat.shiftRight_eq_div_pow, Nat.mul_div_cancel _ two_pow_63_pos]
  cases h : e.word.testBit 63 <;> simp

theorem static_get_val_eq {α : Type} (e : Elt α) : static_get_val e = e.word % 2 ^ 63 := by
  unfold static_get_val Traits.size_t mask_rest
  exact Nat.and_pow_two_sub_one_eq_mod _ 63

theorem static_get_val_lt {α : Type} (e : Elt α) : static_get_val e < 2 ^ 63 := by
  rw [static_get_val_eq]; exact Nat.mod_lt _ two_pow_63_pos

/-- Writing a FREE tag word with a small value `v` stores `v + 2 ^ 63`. -/
theorem static_set_val_FREE {α : Type} (e : Elt α) {v : Nat} (hv : v < 2 ^ 63) :
    static_set_val e v SlotType.FREE = ⟨v + 2 ^ 63, e.payload⟩ := by
  unfold static_set_val Traits.set_size_t SlotType.toBit
  have h1 : (1:Nat) <<< 63 = 2 ^ 63 := by rw [Nat.shiftLeft_eq]; norm_num
  have h2 : v + 2 ^ 63 < 2 ^ 64 := by
    have : (2:Nat) ^ 64 = 2 ^ 63 + 2 ^ 63 := by norm_num
    omega
  unfold nbbits_size_type_m1
  simp only [h1, lor_two_pow_eq_add hv, Nat.mod_eq_of_lt h2]

/-- Writing a USED tag word with value `v < 2 ^ 64` stores `v`. -/
theorem static_set_val_USED {α : Type} (e : Elt α) {v : Nat} (hv : v < 2 ^ 64) :
    static_set_val e v SlotType.USED = ⟨v, e.payload⟩ := by
  unfold static_set_val Traits.set_size_t SlotType.toBit
  simp only [Nat.zero_shiftLeft, Nat.or_zero, Nat.mod_eq_of_lt hv]

theorem static_type_add_FREE {α : Type} {v : Nat} (a : α) (hv : v < 2 ^ 63) :
    static_type (⟨v + 2 ^ 63, a⟩ : Elt α) = SlotType.FREE := by
  rw [static_type_eq]
  have hw : (⟨v + 2 ^ 63, a⟩ : Elt α).word = v + 2 ^ 63 := rfl
  have ht : (v + 2 ^ 63).testBit 63 = true := by
    rw [Nat.add_comm, Nat.testBit_two_pow_add_eq, Nat.testBit_lt_two_pow hv]; rfl
  rw [hw, ht]
  simp

theorem static_get_val_add_FREE {α : Type} {v : Nat} (a : α) (hv : v < 2 ^ 63) :
    static_get_val (⟨v + 2 ^ 63, a⟩ : Elt α) = v := by
  rw [static_get_val_eq]
  have hw : (⟨v + 2 ^ 63, a⟩ : Elt α).word = v + 2 ^ 63 := rfl
  rw [hw, Nat.add_mod_right, Nat.mod_eq_of_lt hv]

theorem static_type_of_lt {α : Type} {v : Nat} (a : α) (hv : v < 2 ^ 63) :
    static_type (⟨v, a⟩ : Elt α) = SlotType.USED := by
  rw [static_type_eq]
  simp [Nat.testBit_lt_two_pow hv]

/-- An object whose tag word has a clear most significant bit reads as USED. -/
theorem static_type_of_msb_clear {α : Type} {e : Elt α} (h : e.word &&& mask_type = 0) :
    static_type e = SlotType.USED := by
  rw [static_type_eq]
  unfold mask_type at h
  rw [Nat.and_two_pow] at h
  cases hb : e.word.testBit 63 with
  | false => simp [hb]
  | true => rw [hb] at h; norm_num at h

theorem static_set_type_USED_eq {α : Type} (e : Elt α) :
    static_set_type e SlotType.USED = ⟨e.word % 2 ^ 63, e.payload⟩ := by
  unfold static_set_type
  have h := static_get_val_lt e
  rw [static_get_val_eq] at *
  unfold Traits.size_t mask_rest
  rw [Nat.and_pow_two_sub_one_eq_mod]
  exact static_set_val_USED e (lt_trans (Nat.mod_lt _ two_pow_63_pos) (by norm_num))

theorem static_get_val_set_type_USED {α : Type} (e : Elt α) :
    static_get_val (static_set_type e SlotType.USED) = static_get_val e := by
  rw [static_set_type_USED_eq, static_get_val_eq, static_get_val_eq]
  exact Nat.mod_mod_of_dvd _ dvd_rfl

theorem getD_map_range {β : Type} [Inhabited β] (f : Nat → β) (n i : Nat) :
    ((List.range n).map f).getD i default = if i < n then f i else default := by
  by_cases h : i < n
  · rw [List.getD_eq_getElem?_getD, List.getElem?_map, List.getElem?_range h, if_pos h]
    rfl
  · rw [if_neg h, List.getD_eq_default]
    simp only [List.length_map, List.length_range]
    omega

theorem getD_set_self {β : Type} [Inhabited β] (l : List β) {i : Nat}
    (h : i < l.length) (a : β) : (l.set i a).getD i default = a := by
  rw [List.getD_eq_getElem?_getD, List.getElem?_set_self (by simpa using h)]
  rfl

theorem getD_set_ne {β : Type} [Inhabited β] (l : List β) {i j : Nat}
    (h : i ≠ j) (a : β) : (l.set i a).getD j default = l.getD j default := by
  rw [List.getD_eq_getElem?_getD, List.getElem?_set_ne h, ← List.getD_eq_getElem?_getD]

theorem filter_range_lt (cap n : Nat) (h : n ≤ cap) :
    (List.range cap).filter (fun i => decide (i < n)) = List.range n := by
  have hsplit : List.range cap = List.range n ++ List.range' n (cap - n) := by
    rw [List.range_eq_range', List.range_eq_range' n]
    have happ := List.range'_append_1 0 n (cap - n)
    rw [Nat.zero_add] at happ
    rw [(by omega : cap - n + n = cap)] at happ
    exact happ.symm
  rw [hsplit, List.filter_append]
  rw [List.filter_eq_self.mpr (fun a ha => by
    simpa using List.mem_range.mp ha)]
  rw [List.filter_eq_nil_iff.mpr (fun a ha => by
    have := List.mem_range'_1.mp ha
    simp
    omega)]
  exact List.append_nil _

namespace CC

theorem get_eq_getD (c : CC α) (i : Nat) : c.get i = c.all_items.getD i default := rfl

@[simp] theorem set_val_capacity (c : CC α) (i v : Nat) (t : SlotType) :
    (c.set_val i v t).capacity_ = c.capacity_ := rfl
@[simp] theorem set_val_size (c : CC α) (i v : Nat) (t : SlotType) :
    (c.set_val i v t).size_ = c.size_ := rfl
@[simp] theorem set_val_free_list (c : CC α) (i v : Nat) (t : SlotType) :
    (c.set_val i v t).free_list = c.free_list := rfl
@[simp] theorem set_val_length (c : CC α) (i v : Nat) (t : SlotType) :
    (c.set_val i v t).all_items.length = c.all_items.length := by
  unfold set_val
  simp
theorem get_set_val_self (c : CC α) {i : Nat} (h : i < c.all_items.length)
    (v : Nat) (t : SlotType) :
    (c.set_val i v t).get i = static_set_val (c.get i) v t := by
  unfold set_val get
  simp only [List.getD_eq_getElem?_getD, List.getElem?_set_self (by simpa using h)]
  rfl

theorem get_set_val_ne (c : CC α) {i j : Nat} (h : i ≠ j) (v : Nat) (t : SlotType) :
    (c.set_val i v t).get j = c.get j := by
  unfold set_val get
  simp only [List.getD_eq_getElem?_getD, List.getElem?_set_ne h]

@[simp] theorem put_capacity (c : CC α) (x : Nat) :
    (c.put_on_free_list x).capacity_ = c.capacity_ := rfl
@[simp] theorem put_size (c : CC α) (x : Nat) :
    (c.put_on_free_list x).size_ = c.size_ := rfl
@[simp] theorem put_block_size (c : CC α) (x : Nat) :
    (c.put_on_free_list x).block_size = c.block_size := rfl
@[simp] theorem put_free_list (c : CC α) (x : Nat) :
    (c.put_on_free_list x).free_list = x := rfl
@[simp] theorem put_length (c : CC α) (x : Nat) :
    (c.put_on_free_list x).all_items.length = c.all_items.length := by
  unfold put_on_free_list
  simp
theorem get_put_self (c : CC α) {x : Nat} (h : x < c.all_items.length)
    (hfl : c.free_list < 2 ^ 63) :
    (c.put_on_free_list x).get x = ⟨c.free_list + 2 ^ 63, (c.get x).payload⟩ := by
  unfold put_on_free_list
  show (c.set_val x c.free_list SlotType.FREE).get x = _
  rw [get_set_val_self c h, static_set_val_FREE _ hfl]

theorem get_put_ne (c : CC α) {x j : Nat} (h : x ≠ j) :
    (c.put_on_free_list x).get j = c.get j := by
  unfold put_on_free_list
  exact get_set_val_ne c h _ _

@[simp] theorem threadFreeDesc_capacity (c : CC α) (oldcap n : Nat) :
    (c.threadFreeDesc oldcap n).capacity_ = c.capacity_ := by
  induction n generalizing c with
  | zero => rfl
  | succ m ih => rw [threadFreeDesc, ih, put_capacity]
@[simp] theorem threadFreeDesc_size (c : CC α) (oldcap n : Nat) :
    (c.threadFreeDesc oldcap n).size_ = c.size_ := by
  induction n generalizing c with
  | zero => rfl
  | succ m ih => rw [threadFreeDesc, ih, put_size]
@[simp] theorem threadFreeDesc_block_size (c : CC α) (oldcap n : Nat) :
    (c.threadFreeDesc oldcap n).block_size = c.block_size := by
  induction n generalizing c with
  | zero => rfl
  | succ m ih => rw [threadFreeDesc, ih, put_block_size]
@[simp] theorem threadFreeDesc_length (c : CC α) (oldcap n : Nat) :
    (c.threadFreeDesc oldcap n).all_items.length = c.all_items.length := by
  induction n generalizing c with
  | zero => rfl
  | succ m ih => rw [threadFreeDesc, ih, put_length]
theorem threadFreeDesc_free_list (c : CC α) (oldcap : Nat) {n : Nat} (h : 0 < n) :
    (c.threadFreeDesc oldcap n).free_list = oldcap := by
  induction n generalizing c with
  | zero => omega
  | succ m ih =>
    rw [threadFreeDesc]
    rcases Nat.eq_zero_or_pos m with hm | hm
    · subst hm
      rw [threadFreeDesc, put_free_list]
      omega
    · rw [ih _ hm]

theorem threadFreeDesc_get_out (c : CC α) (oldcap : Nat) {n j : Nat}
    (h : j < oldcap ∨ oldcap + n ≤ j) :
    (c.threadFreeDesc oldcap n).get j = c.get j := by
  induction n generalizing c with
  | zero => rfl
  | succ m ih =>
    rw [threadFreeDesc]
    rcases h with h | h
    · rw [ih _ (Or.inl h), get_put_ne c (by omega)]
    · rw [ih _ (Or.inr (by omega)), get_put_ne c (by omega)]

theorem threadFreeDesc_get_mid (c : CC α) (oldcap n j : Nat)
    (hlen : oldcap + n ≤ c.all_items.length)
    (hfl : c.free_list < 2 ^ 63) (hbound : oldcap + n ≤ 2 ^ 63)
    (h1 : oldcap ≤ j) (h2 : j < oldcap + n) :
    (c.threadFreeDesc oldcap n).get j =
      ⟨(if j + 1 = oldcap + n then c.free_list else j + 1) + 2 ^ 63,
        (c.get j).payload⟩ := by
  induction n generalizing c with
  | zero => omega
  | succ m ih =>
    rw [threadFreeDesc]
    rcases Nat.lt_or_ge j (oldcap + m) with hj | hj
    · have hlen1 : oldcap + m ≤ (c.put_on_free_list (oldcap + m)).all_items.length := by
        rw [put_length]; omega
      have hfl1 : (c.put_on_free_list (oldcap + m)).free_list < 2 ^ 63 := by
        rw [put_free_list]; omega
      rw [ih _ hlen1 hfl1 (by omega) hj]
      rw [put_free_list, get_put_ne c (by omega)]
      have hne : ¬ j + 1 = oldcap + (m + 1) := by omega
      rw [if_neg hne]
      by_cases he : j + 1 = oldcap + m
      · rw [if_pos he, he]
      · rw [if_neg he]
    · have hje : j = oldcap + m := by omega
      subst hje
      rw [threadFreeDesc_get_out _ _ (Or.inr (le_refl _)),
        get_put_self c (by omega) hfl]
      have hcond : oldcap + m + 1 = oldcap + (m + 1) := by omega
      rw [if_pos hcond]

omit [Inhabited α] in
theorem alloc_newcap (c : CC α) (h : c.capacity_ + c.block_size ≤ 2 ^ 63) :
    (c.capacity_ + c.block_size) % 2 ^ 64 = c.capacity_ + c.block_size := by
  apply Nat.mod_eq_of_lt
  calc c.capacity_ + c.block_size ≤ 2 ^ 63 := h
    _ < 2 ^ 64 := by norm_num

theorem get_with_block_size (c : CC α) (bs i : Nat) :
    ({ c with block_size := bs } : CC α).get i = c.get i := rfl

theorem allocate_new_block_eq (p : Policy) (c : CC α) :
    c.allocate_new_block p =
      { c.allocPre.threadFreeDesc c.capacity_
          ((c.capacity_ + c.block_size) % 2 ^ 64 - c.capacity_) with
        block_size := p.increase_size
          (c.allocPre.threadFreeDesc c.capacity_
            ((c.capacity_ + c.block_size) % 2 ^ 64 - c.capacity_)).capacity_
          (c.allocPre.threadFreeDesc c.capacity_
            ((c.capacity_ + c.block_size) % 2 ^ 64 - c.capacity_)).block_size } := rfl

@[simp] theorem allocPre_capacity (c : CC α) :
    c.allocPre.capacity_ = (c.capacity_ + c.block_size) % 2 ^ 64 := rfl
@[simp] theorem allocPre_free_list (c : CC α) : c.allocPre.free_list = c.free_list := rfl
@[simp] theorem allocPre_size (c : CC α) : c.allocPre.size_ = c.size_ := rfl
@[simp] theorem allocPre_block_size (c : CC α) : c.allocPre.block_size = c.block_size := rfl
@[simp] theorem allocPre_length (c : CC α) :
    c.allocPre.all_items.length = (c.capacity_ + c.block_size) % 2 ^ 64 := by
  show ((List.range _).map _).length = _
  rw [List.length_map, List.length_range]
theorem allocPre_get (c : CC α) (h3 : c.capacity_ + c.block_size ≤ 2 ^ 63)
    {i : Nat} (hi : i < c.capacity_ + c.block_size) :
    c.allocPre.get i =
      if i < c.capacity_ then
        if c.is_used i then c.get i
        else static_set_val default (static_get_val (c.get i)) SlotType.FREE
      else default := by
  show ((List.range ((c.capacity_ + c.block_size) % 2 ^ 64)).map _).getD i default = _
  rw [alloc_newcap c h3, getD_map_range, if_pos hi]

theorem alloc_capacity (p : Policy) (c : CC α) (h : GrowOk c) :
    (c.allocate_new_block p).capacity_ = c.capacity_ + c.block_size := by
  obtain ⟨h1, h2, h3, h4⟩ := h
  rw [allocate_new_block_eq]
  show (c.allocPre.threadFreeDesc _ _).capacity_ = _
  rw [threadFreeDesc_capacity, allocPre_capacity, alloc_newcap c h3]

theorem alloc_size (p : Policy) (c : CC α) :
    (c.allocate_new_block p).size_ = c.size_ := by
  rw [allocate_new_block_eq]
  show (c.allocPre.threadFreeDesc _ _).size_ = _
  rw [threadFreeDesc_size, allocPre_size]

theorem alloc_length (p : Policy) (c : CC α) (h : GrowOk c) :
    (c.allocate_new_block p).all_items.length = c.capacity_ + c.block_size := by
  obtain ⟨h1, h2, h3, h4⟩ := h
  rw [allocate_new_block_eq]
  show (c.allocPre.threadFreeDesc _ _).all_items.length = _
  rw [threadFreeDesc_length, allocPre_length, alloc_newcap c h3]

theorem alloc_block_size (p : Policy) (c : CC α) (h : GrowOk c) :
    (c.allocate_new_block p).block_size =
      p.increase_size (c.capacity_ + c.block_size) c.block_size := by
  obtain ⟨h1, h2, h3, h4⟩ := h
  rw [allocate_new_block_eq]
  show p.increase_size (c.allocPre.threadFreeDesc _ _).capacity_
      (c.allocPre.threadFreeDesc _ _).block_size = _
  rw [threadFreeDesc_capacity, threadFreeDesc_block_size, allocPre_capacity,
    allocPre_block_size, alloc_newcap c h3]

theorem alloc_free_list (p : Policy) (c : CC α) (h : GrowOk c) :
    (c.allocate_new_block p).free_list = c.capacity_ := by
  obtain ⟨h1, h2, h3, h4⟩ := h
  rw [allocate_new_block_eq]
  show (c.allocPre.threadFreeDesc _ _).free_list = _
  rw [alloc_newcap c h3, threadFreeDesc_free_list _ _ (by omega)]

theorem alloc_get_old_used (p : Policy) (c : CC α) (h : GrowOk c)
    {i : Nat} (hi : i < c.capacity_) (hu : c.is_used i = true) :
    (c.allocate_new_block p).get i = c.get i := by
  obtain ⟨h1, h2, h3, h4⟩ := h
  rw [allocate_new_block_eq, get_with_block_size]
  rw [threadFreeDesc_get_out _ _ (Or.inl hi)]
  rw [allocPre_get c h3 (by omega), if_pos hi, if_pos hu]

theorem alloc_get_old_free (p : Policy) (c : CC α) (h : GrowOk c)
    {i : Nat} (hi : i < c.capacity_) (hu : c.is_used i = false) :
    (c.allocate_new_block p).get i =
      ⟨c.get_val i + 2 ^ 63, (default : Elt α).payload⟩ := by
  obtain ⟨h1, h2, h3, h4⟩ := h
  rw [allocate_new_block_eq, get_with_block_size]
  rw [threadFreeDesc_get_out _ _ (Or.inl hi)]
  rw [allocPre_get c h3 (by omega), if_pos hi,
    if_neg (by rw [hu]; exact Bool.false_ne_true)]
  rw [static_set_val_FREE _ (static_get_val_lt _)]
  rfl

theorem alloc_get_new (p : Policy) (c : CC α) (h : GrowOk c)
    {i : Nat} (h1i : c.capacity_ ≤ i) (h2i : i < c.capacity_ + c.block_size) :
    (c.allocate_new_block p).get i =
      ⟨(if i + 1 = c.capacity_ + c.block_size then c.free_list else i + 1) + 2 ^ 63,
        (default : Elt α).payload⟩ := by
  obtain ⟨h1, h2, h3, h4⟩ := h
  rw [allocate_new_block_eq, get_with_block_size, alloc_newcap c h3]
  have hn : c.capacity_ + (c.capacity_ + c.block_size - c.capacity_) =
      c.capacity_ + c.block_size := by omega
  rw [threadFreeDesc_get_mid _ c.capacity_
    (c.capacity_ + c.block_size - c.capacity_) i
    (by rw [allocPre_length, alloc_newcap c h3]; omega)
    (show c.allocPre.free_list < 2 ^ 63 from h4)
    (by omega) h1i (by omega)]
  rw [hn, allocPre_free_list]
  have hnot : ¬ i < c.capacity_ := by omega
  rw [allocPre_get c h3 h2i, if_neg hnot]

theorem get_mk (cap s bs fl : Nat) (l : List (Elt α)) (i : Nat) :
    (CC.mk cap s bs fl l).get i = l.getD i default := rfl

theorem is_used_true_iff (c : CC α) (i : Nat) :
    c.is_used i = true ↔ static_type (c.get i) = SlotType.USED := by
  unfold is_used type
  exact decide_eq_true_iff

theorem is_used_false_iff (c : CC α) (i : Nat) :
    c.is_used i = false ↔ static_type (c.get i) = SlotType.FREE := by
  unfold is_used type
  rcases h : static_type (c.get i) <;> simp [h]

/-- On a state whose free list is not exhausted, `insert` pops the head. -/
theorem insert_nogrow_eq (p : Policy) (c : CC α) (t : Elt α) (h : c.free_list ≠ bottom) :
    c.insert p t =
      ({ c with
          all_items := c.all_items.set c.free_list t
          free_list := static_get_val (c.get c.free_list)
          size_ := (c.size_ + 1) % 2 ^ 64 }, c.free_list) := by
  unfold insert
  simp only [if_neg h, List.set_set, static_get_val_set_type_USED]

/-- When the free list is exhausted, `insert` first grows, then proceeds on
the grown state (whose free list is not `bottom`). -/
theorem insert_eq_grow (p : Policy) (c : CC α) (t : Elt α) (h : c.free_list = bottom)
    (h2 : (c.allocate_new_block p).free_list ≠ bottom) :
    c.insert p t = (c.allocate_new_block p).insert p t := by
  unfold insert
  rw [if_pos h, if_neg h2]

theorem insert_nogrow_snd (p : Policy) (c : CC α) (t : Elt α) (h : c.free_list ≠ bottom) :
    (c.insert p t).2 = c.free_list := by
  rw [insert_nogrow_eq p c t h]

theorem insert_nogrow_capacity (p : Policy) (c : CC α) (t : Elt α) (h : c.free_list ≠ bottom) :
    (c.insert p t).1.capacity_ = c.capacity_ := by
  rw [insert_nogrow_eq p c t h]

theorem insert_nogrow_size (p : Policy) (c : CC α) (t : Elt α) (h : c.free_list ≠ bottom) :
    (c.insert p t).1.size_ = (c.size_ + 1) % 2 ^ 64 := by
  rw [insert_nogrow_eq p c t h]

theorem insert_nogrow_block_size (p : Policy) (c : CC α) (t : Elt α) (h : c.free_list ≠ bottom) :
    (c.insert p t).1.block_size = c.block_size := by
  rw [insert_nogrow_eq p c t h]

theorem insert_nogrow_free_list (p : Policy) (c : CC α) (t : Elt α) (h : c.free_list ≠ bottom) :
    (c.insert p t).1.free_list = static_get_val (c.get c.free_list) := by
  rw [insert_nogrow_eq p c t h]

theorem insert_nogrow_length (p : Policy) (c : CC α) (t : Elt α) (h : c.free_list ≠ bottom) :
    (c.insert p t).1.all_items.length = c.all_items.length := by
  rw [insert_nogrow_eq p c t h]
  exact List.length_set _ _ _

theorem insert_nogrow_get_self (p : Policy) (c : CC α) (t : Elt α) (h : c.free_list ≠ bottom)
    (hlen : c.free_list < c.all_items.length) :
    (c.insert p t).1.get c.free_list = t := by
  rw [insert_nogrow_eq p c t h, get_mk]
  exact getD_set_self _ hlen _

theorem insert_nogrow_get_ne (p : Policy) (c : CC α) (t : Elt α) (h : c.free_list ≠ bottom)
    {j : Nat} (hj : c.free_list ≠ j) :
    (c.insert p t).1.get j = c.get j := by
  rw [insert_nogrow_eq p c t h, get_mk]
  exact getD_set_ne _ hj _

theorem get_ignore_size (c : CC α) (s i : Nat) :
    ({ c with size_ := s } : CC α).get i = c.get i := by
  cases c
  rfl

theorem erase_capacity (c : CC α) (x : Nat) : (c.erase x).capacity_ = c.capacity_ := by
  unfold erase put_on_free_list set_val
  rfl

theorem erase_block_size (c : CC α) (x : Nat) : (c.erase x).block_size = c.block_size := by
  unfold erase put_on_free_list set_val
  rfl

theorem erase_free_list (c : CC α) (x : Nat) : (c.erase x).free_list = x := by
  unfold erase put_on_free_list set_val
  rfl

theorem erase_size (c : CC α) (x : Nat) :
    (c.erase x).size_ = (c.size_ + (2 ^ 64 - 1)) % 2 ^ 64 := by
  unfold erase put_on_free_list set_val
  rfl

theorem erase_length (c : CC α) (x : Nat) :
    (c.erase x).all_items.length = c.all_items.length := by
  show ((c.all_items.set x default).set x _).length = _
  simp

theorem erase_get_self (c : CC α) {x : Nat} (hx : x < c.all_items.length)
    (hfl : c.free_list < 2 ^ 63) :
    (c.erase x).get x = ⟨c.free_list + 2 ^ 63, (default : Elt α).payload⟩ := by
  have step : (c.erase x).get x
      = (({ c with all_items := c.all_items.set x default } : CC α).put_on_free_list x).get x := by
    unfold erase
    exact get_ignore_size _ _ _
  rw [step, get_put_self _ (by simpa using hx) (by simpa using hfl)]
  have hd : ({ c with all_items := c.all_items.set x default } : CC α).get x = default := by
    rw [get_mk]
    exact getD_set_self _ hx _
  rw [hd]

theorem erase_get_ne (c : CC α) {x j : Nat} (h : x ≠ j) :
    (c.erase x).get j = c.get j := by
  have step : (c.erase x).get j
      = (({ c with all_items := c.all_items.set x default } : CC α).put_on_free_list x).get j := by
    unfold erase
    exact get_ignore_size _ _ _
  rw [step, get_put_ne _ h, get_mk, getD_set_ne _ h]
  rfl

theorem firstUsedFrom_eq (c : CC α) (i : Nat) :
    c.firstUsedFrom i =
      if i < c.capacity_ then
        (if c.is_used i then i else c.firstUsedFrom (i + 1))
      else c.capacity_ := by
  unfold firstUsedFrom
  by_cases h : i < c.capacity_
  · have hd : c.capacity_ - i = (c.capacity_ - (i + 1)) + 1 := by omega
    rw [hd, if_pos h]
    rfl
  · have hd : c.capacity_ - i = 0 := by omega
    rw [hd, if_neg h]
    rfl

/-- The iterator walk starting from the first used index at or after `i`
visits exactly the used indices in `[i, capacity_)`, in ascending order. -/
theorem visit_eq_filter (c : CC α) (d : Nat) :
    ∀ i fuel, c.capacity_ - i = d → d < fuel →
      c.visitFromAux (c.firstUsedFrom i) fuel =
        (List.range' i (c.capacity_ - i)).filter (fun j => c.is_used j) := by
  induction d with
  | zero =>
    intro i fuel hd hf
    have hic : ¬ i < c.capacity_ := by omega
    rw [firstUsedFrom_eq, if_neg hic, hd]
    rcases fuel with _ | f
    · omega
    · show (if c.capacity_ < c.capacity_ then _ else []) = _
      rw [if_neg (lt_irrefl _)]
      rfl
  | succ d ih =>
    intro i fuel hd hf
    have hic : i < c.capacity_ := by omega
    have hd1 : c.capacity_ - (i + 1) = d := by omega
    have hr : List.range' i (c.capacity_ - i) =
        i :: List.range' (i + 1) (c.capacity_ - (i + 1)) := by
      rw [hd, hd1, List.range'_succ]
    rcases fuel with _ | f
    · omega
    by_cases hu : c.is_used i
    · rw [firstUsedFrom_eq, if_pos hic, if_pos hu]
      show (if i < c.capacity_ then
          i :: c.visitFromAux (c.incrementIdx i) f else []) = _
      rw [if_pos hic]
      have hinc : c.incrementIdx i = c.firstUsedFrom (i + 1) := rfl
      rw [hinc, ih (i + 1) f hd1 (by omega), hr, hd1]
      rw [List.filter_cons, if_pos (by simpa using hu)]
    · rw [firstUsedFrom_eq, if_pos hic, if_neg hu]
      rw [ih (i + 1) (f + 1) hd1 (by omega), hr, hd1]
      rw [List.filter_cons, if_neg (by simpa using hu)]

/-- Forward iteration visits exactly the used indices, in ascending order,
provided `size_ = 0` only on states with no used slot (the `begin()`
constructor trusts `empty()`). -/
theorem iteration_eq_usedIndices (c : CC α) (h : c.size_ = 0 → c.usedIndices = []) :
    c.iteration = c.usedIndices := by
  unfold iteration begin_idx
  by_cases hs : c.size_ = 0
  · rw [if_pos hs, h hs]
    show (if c.capacity_ < c.capacity_ then _ else []) = _
    rw [if_neg (lt_irrefl _)]
  · rw [if_neg hs]
    have hb : (if c.is_used 0 then (0 : Nat) else c.incrementIdx 0) = c.firstUsedFrom 0 := by
      by_cases h0 : c.is_used 0
      · rw [if_pos h0, firstUsedFrom_eq]
        by_cases hc : 0 < c.capacity_
        · rw [if_pos hc, if_pos h0]
        · rw [if_neg hc]
          omega
      · rw [if_neg h0, firstUsedFrom_eq]
        by_cases hc : 0 < c.capacity_
        · rw [if_pos hc, if_neg h0]
          rfl
        · rw [if_neg hc]
          show c.firstUsedFrom (0 + 1) = c.capacity_
          rw [firstUsedFrom_eq, if_neg (by omega)]
    rw [hb, visit_eq_filter c c.capacity_ 0 (c.capacity_ + 1) (by omega) (by omega)]
    unfold usedIndices
    rw [List.range_eq_range', Nat.sub_zero]

theorem is_used_congr {c c2 : CC α} {i : Nat} (h : c2.get i = c.get i) :
    c2.is_used i = c.is_used i := by
  unfold is_used type
  rw [h]

theorem get_val_congr {c c2 : CC α} {i : Nat} (h : c2.get i = c.get i) :
    c2.get_val i = c.get_val i := by
  unfold get_val
  rw [h]

theorem FreeChain.mem_lt {c : CC α} {hd : Nat} {L : List Nat}
    (hc : FreeChain c hd L) : ∀ j ∈ L, j < c.capacity_ := by
  induction hc with
  | nil =>
    intro j hj
    cases hj
  | cons hlt hfree htail ih =>
    intro j hj
    rcases List.mem_cons.mp hj with rfl | hj
    · exact hlt
    · exact ih j hj

theorem FreeChain.frame {c c2 : CC α} (hcap : c2.capacity_ = c.capacity_) :
    ∀ {hd : Nat} {L : List Nat}, FreeChain c hd L →
      (∀ j ∈ L, c2.get j = c.get j) → FreeChain c2 hd L := by
  intro hd L hc
  induction hc with
  | nil =>
    intro _
    exact FreeChain.nil
  | cons hlt hfree htail ih =>
    intro hget
    rename_i h rest
    have hh : c2.get h = c.get h := hget h (List.mem_cons_self h rest)
    refine FreeChain.cons (by rw [hcap]; exact hlt) ?_ ?_
    · rw [is_used_congr hh]
      exact hfree
    · rw [get_val_congr hh]
      exact ih (fun j hj => hget j (List.mem_cons_of_mem h hj))

theorem FreeChain.head_lt_or_eq {c : CC α} {hd : Nat} {L : List Nat}
    (hc : FreeChain c hd L) : hd = bottom ∨ hd < c.capacity_ := by
  cases hc with
  | nil => exact Or.inl rfl
  | cons hlt hfree htail => exact Or.inr hlt

theorem FreeChain.bottom_nil {c : CC α} {L : List Nat} (hcap : c.capacity_ ≤ bottom)
    (hc : FreeChain c bottom L) : L = [] := by
  cases hc with
  | nil => rfl
  | cons hlt hfree htail => omega

theorem WF.size_le {c : CC α} (hwf : WF c) : c.size_ ≤ c.capacity_ := by
  obtain ⟨L, _, _, _, hsz⟩ := hwf.free
  omega

theorem WF.free_list_lt63 {c : CC α} (hwf : WF c) : c.free_list < 2 ^ 63 := by
  obtain ⟨L, hc, _, _, _⟩ := hwf.free
  have hcap := hwf.cap_le
  have hb : bottom < 2 ^ 63 := by
    unfold bottom
    omega
  rcases hc.head_lt_or_eq with he | hlt
  · omega
  · omega

theorem wf_init (p : Policy) : WF (CC.init p : CC α) := by
  refine ⟨rfl, Nat.zero_le _, [], FreeChain.nil, List.nodup_nil, ?_, rfl⟩
  intro i hi
  exact absurd hi (Nat.not_lt_zero i)

theorem mem_of_nodup_full {L : List Nat} {cap : Nat} (hnd : L.Nodup)
    (hmem : ∀ j ∈ L, j < cap) (hlen : cap ≤ L.length) : ∀ i, i < cap → i ∈ L := by
  intro i hi
  have hsub : L ⊆ List.range cap := by
    intro j hj
    exact List.mem_range.mpr (hmem j hj)
  have hperm : L.Perm (List.range cap) :=
    (List.subperm_of_subset hnd hsub).perm_of_length_le (by simpa using hlen)
  exact hperm.mem_iff.mpr (List.mem_range.mpr hi)

/-- `size_` counts the used slots: it equals the length of `usedIndices`. -/
theorem WF.size_eq_usedIndices {c : CC α} (hwf : WF c) :
    c.size_ = c.usedIndices.length := by
  obtain ⟨L, hc, hnd, hiff, hsz⟩ := hwf.free
  have hlenfilter : c.usedIndices.length =
      (List.range c.capacity_).countP (fun i => c.is_used i) := by
    unfold usedIndices
    rw [List.countP_eq_length_filter]
  have hsplit := List.length_eq_countP_add_countP (fun i => c.is_used i)
    (List.range c.capacity_)
  have hLperm : L.Perm ((List.range c.capacity_).filter (fun i => !c.is_used i)) := by
    rw [List.perm_ext_iff_of_nodup hnd ((List.nodup_range _).filter _)]
    intro j
    constructor
    · intro hj
      have hjlt := hc.mem_lt j hj
      refine List.mem_filter.mpr ⟨List.mem_range.mpr hjlt, ?_⟩
      have := (hiff j hjlt).mpr hj
      rw [this]
      rfl
    · intro hj
      obtain ⟨hjr, hju⟩ := List.mem_filter.mp hj
      have hjlt := List.mem_range.mp hjr
      refine (hiff j hjlt).mp ?_
      revert hju
      rcases c.is_used j with _ | _ <;> simp
  have hLlen : L.length =
      (List.range c.capacity_).countP (fun i => !c.is_used i) := by
    rw [hLperm.length_eq, List.countP_eq_length_filter]
  have hrange : (List.range c.capacity_).length = c.capacity_ := List.length_range _
  have hnot : (List.range c.capacity_).countP (fun i => ¬c.is_used i = true) =
      (List.range c.capacity_).countP (fun i => !c.is_used i) := by
    apply List.countP_congr
    intro j _
    rcases c.is_used j with _ | _ <;> simp
  rw [hlenfilter]
  rw [hsplit, hnot, ← hLlen] at hrange
  omega

theorem FreeChain.cons_inv {c : CC α} {hd : Nat} {L : List Nat}
    (hc : FreeChain c hd L) (hne : hd ≠ bottom) :
    ∃ rest, L = hd :: rest ∧ hd < c.capacity_ ∧ c.is_used hd = false ∧
      FreeChain c (c.get_val hd) rest := by
  cases hc with
  | nil => exact absurd rfl hne
  | cons hlt hfree htail => exact ⟨_, rfl, hlt, hfree, htail⟩

/-- Growing an exhausted container preserves the invariant; the grown state
has the old slots untouched, the new slots free, and the free list starting
at the old capacity. -/
theorem wf_alloc (p : Policy) (c : CC α) (hwf : WF c) (hfl : c.free_list = bottom)
    (hbs : 0 < c.block_size) (hcap : c.capacity_ + c.block_size ≤ bottom) :
    WF (c.allocate_new_block p) ∧
      (c.allocate_new_block p).free_list = c.capacity_ ∧
      (c.allocate_new_block p).size_ = c.size_ ∧
      (c.allocate_new_block p).capacity_ = c.capacity_ + c.block_size ∧
      (∀ i, i < c.capacity_ → (c.allocate_new_block p).get i = c.get i) := by
  have hbot : bottom < 2 ^ 63 := by
    unfold bottom
    omega
  have hgrow : GrowOk c := ⟨hwf.len_eq, hbs, by omega, hwf.free_list_lt63⟩
  obtain ⟨L, hchain, hnd, hiff, hsz⟩ := hwf.free
  rw [hfl] at hchain
  have hLnil : L = [] := hchain.bottom_nil hwf.cap_le
  subst hLnil
  simp only [List.length_nil] at hsz
  have hused : ∀ i, i < c.capacity_ → c.is_used i = true := by
    intro i hi
    rcases hb : c.is_used i with _ | _
    · exact absurd ((hiff i hi).mp hb) (List.not_mem_nil i)
    · rfl
  have hgetold : ∀ i, i < c.capacity_ → (c.allocate_new_block p).get i = c.get i := by
    intro i hi
    exact alloc_get_old_used p c hgrow hi (hused i hi)
  have hkey : ∀ d, 1 ≤ d → d ≤ c.block_size →
      FreeChain (c.allocate_new_block p) (c.capacity_ + c.block_size - d)
        (List.range' (c.capacity_ + c.block_size - d) d) := by
    intro d
    induction d with
    | zero => omega
    | succ d ih =>
      intro _ hble
      rcases Nat.eq_zero_or_pos d with hd0 | hd0
      · subst hd0
        have hj1 : c.capacity_ ≤ c.capacity_ + c.block_size - 1 := by omega
        have hj2 : c.capacity_ + c.block_size - 1 < c.capacity_ + c.block_size := by omega
        have hget := alloc_get_new p c hgrow hj1 hj2
        rw [if_pos (by omega : c.capacity_ + c.block_size - 1 + 1
          = c.capacity_ + c.block_size)] at hget
        have hr : List.range' (c.capacity_ + c.block_size - 1) 1
            = [c.capacity_ + c.block_size - 1] := rfl
        rw [hr]
        refine FreeChain.cons ?_ ?_ ?_
        · rw [alloc_capacity p c hgrow]
          omega
        · rw [is_used_false_iff, hget, hfl]
          exact static_type_add_FREE _ hbot
        · have hv : (c.allocate_new_block p).get_val (c.capacity_ + c.block_size - 1)
              = bottom := by
            unfold get_val
            rw [hget, hfl]
            exact static_get_val_add_FREE _ hbot
          rw [hv]
          exact FreeChain.nil
      · have hj1 : c.capacity_ ≤ c.capacity_ + c.block_size - (d + 1) := by omega
        have hj2 : c.capacity_ + c.block_size - (d + 1) < c.capacity_ + c.block_size := by
          omega
        have hget := alloc_get_new p c hgrow hj1 hj2
        rw [if_neg (by omega : ¬ (c.capacity_ + c.block_size - (d + 1) + 1
          = c.capacity_ + c.block_size))] at hget
        rw [List.range'_succ]
        refine FreeChain.cons ?_ ?_ ?_
        · rw [alloc_capacity p c hgrow]
          omega
        · rw [is_used_false_iff, hget]
          exact static_type_add_FREE _ (by omega)
        · have hv : (c.allocate_new_block p).get_val (c.capacity_ + c.block_size - (d + 1))
              = c.capacity_ + c.block_size - (d + 1) + 1 := by
            unfold get_val
            rw [hget]
            exact static_get_val_add_FREE _ (by omega)
          rw [hv, (by omega : c.capacity_ + c.block_size - (d + 1) + 1
            = c.capacity_ + c.block_size - d)]
          exact ih hd0 (by omega)
  refine ⟨⟨?_, ?_, ?_⟩, alloc_free_list p c hgrow, alloc_size p c,
    alloc_capacity p c hgrow, hgetold⟩
  · rw [alloc_length p c hgrow, alloc_capacity p c hgrow]
  · rw [alloc_capacity p c hgrow]
    exact hcap
  · refine ⟨List.range' c.capacity_ c.block_size, ?_, List.nodup_range' _ _, ?_, ?_⟩
    · have hch := hkey c.block_size hbs (le_refl _)
      rw [(by omega : c.capacity_ + c.block_size - c.block_size = c.capacity_)] at hch
      rw [alloc_free_list p c hgrow]
      exact hch
    · intro i hi
      rw [alloc_capacity p c hgrow] at hi
      rcases Nat.lt_or_ge i c.capacity_ with hlt | hge
      · rw [is_used_congr (hgetold i hlt), hused i hlt]
        constructor
        · intro hcontra
          simp at hcontra
        · intro hmem
          have := List.mem_range'_1.mp hmem
          omega
      · have hget := alloc_get_new p c hgrow hge (by omega)
        constructor
        · intro _
          exact List.mem_range'_1.mpr (by omega)
        · intro _
          rw [is_used_false_iff, hget]
          refine static_type_add_FREE _ ?_
          by_cases hc2 : i + 1 = c.capacity_ + c.block_size
          · rw [if_pos hc2, hfl]
            omega
          · rw [if_neg hc2]
            omega
    · rw [alloc_size p c, List.length_range', alloc_capacity p c hgrow]
      omega

/-- `insert` on a state whose free list is not exhausted: pops the head,
stores `t` there, preserves the invariant and everything else. -/
theorem insert_pop_spec (p : Policy) (c : CC α) (t : Elt α) (hwf : WF c)
    (ht : t.word &&& mask_type = 0) (hne : c.free_list ≠ bottom) :
    WF (c.insert p t).1 ∧
      (c.insert p t).1.size_ = c.size_ + 1 ∧
      (c.insert p t).2 = c.free_list ∧
      (c.insert p t).1.capacity_ = c.capacity_ ∧
      (c.insert p t).1.get c.free_list = t ∧
      (c.insert p t).1.is_used c.free_list = true ∧
      (∀ j, j ≠ c.free_list → (c.insert p t).1.get j = c.get j) := by
  obtain ⟨L, hchain, hnd, hiff, hsz⟩ := hwf.free
  obtain ⟨rest, hL, hlt, hfree, hrest⟩ := hchain.cons_inv hne
  subst hL
  simp only [List.length_cons] at hsz
  have hbot : bottom < 2 ^ 63 := by
    unfold bottom
    omega
  have hlen : c.free_list < c.all_items.length := by
    rw [hwf.len_eq]
    exact hlt
  have hget_self := insert_nogrow_get_self p c t hne hlen
  have hget_ne : ∀ {j : Nat}, c.free_list ≠ j → (c.insert p t).1.get j = c.get j :=
    fun hj => insert_nogrow_get_ne p c t hne hj
  have hflnotin : c.free_list ∉ rest := (List.nodup_cons.mp hnd).1
  have hsize : (c.insert p t).1.size_ = c.size_ + 1 := by
    rw [insert_nogrow_size p c t hne]
    apply Nat.mod_eq_of_lt
    have hcap := hwf.cap_le
    omega
  have hused_new : (c.insert p t).1.is_used c.free_list = true := by
    rw [is_used_true_iff, hget_self]
    exact static_type_of_msb_clear ht
  refine ⟨⟨?_, ?_, ?_⟩, hsize, insert_nogrow_snd p c t hne,
    insert_nogrow_capacity p c t hne, hget_self, hused_new,
    fun j hj => hget_ne (Ne.symm hj)⟩
  · rw [insert_nogrow_length p c t hne, hwf.len_eq, insert_nogrow_capacity p c t hne]
  · rw [insert_nogrow_capacity p c t hne]
    exact hwf.cap_le
  · refine ⟨rest, ?_, (List.nodup_cons.mp hnd).2, ?_, ?_⟩
    · rw [insert_nogrow_free_list p c t hne]
      exact FreeChain.frame (insert_nogrow_capacity p c t hne) hrest
        (fun j hj => hget_ne (fun he => hflnotin (he ▸ hj)))
    · intro i hi
      rw [insert_nogrow_capacity p c t hne] at hi
      by_cases hieq : i = c.free_list
      · subst hieq
        rw [hused_new]
        constructor
        · intro hcontra
          simp at hcontra
        · intro hmem
          exact absurd hmem hflnotin
      · rw [is_used_congr (hget_ne (Ne.symm hieq))]
        have hold := hiff i hi
        rw [List.mem_cons] at hold
        constructor
        · intro hf
          rcases hold.mp hf with he | hm
          · exact absurd he hieq
          · exact hm
        · intro hm
          exact hold.mpr (Or.inr hm)
    · rw [hsize, insert_nogrow_capacity p c t hne]
      omega

/-- Full characterisation of `insert` on a well-formed state (growing first
when the free list is exhausted): the invariant is preserved, the size
increases by one, the returned index is a valid, used index distinct from
`bottom`, the new slot holds `t`, and every other old slot is untouched. -/
theorem insert_spec (p : Policy) (c : CC α) (t : Elt α) (hwf : WF c)
    (ht : t.word &&& mask_type = 0)
    (hgrow : c.free_list = bottom →
      0 < c.block_size ∧ c.capacity_ + c.block_size ≤ bottom) :
    WF (c.insert p t).1 ∧
      (c.insert p t).1.size_ = c.size_ + 1 ∧
      (c.insert p t).2 ≠ bottom ∧
      (c.insert p t).2 < (c.insert p t).1.capacity_ ∧
      (c.insert p t).1.get (c.insert p t).2 = t ∧
      (c.insert p t).1.is_used (c.insert p t).2 = true ∧
      c.capacity_ ≤ (c.insert p t).1.capacity_ ∧
      (∀ j, j < c.capacity_ → j ≠ (c.insert p t).2 →
        (c.insert p t).1.get j = c.get j) := by
  by_cases hb : c.free_list = bottom
  · obtain ⟨hbs, hcapb⟩ := hgrow hb
    obtain ⟨hwfA, hflA, hszA, hcapA, hgetA⟩ := wf_alloc p c hwf hb hbs hcapb
    have hAne : (c.allocate_new_block p).free_list ≠ bottom := by
      rw [hflA]
      omega
    rw [insert_eq_grow p c t hb hAne]
    obtain ⟨hwf2, hsz2, hsnd2, hcap2, hgetself2, hused2, hgetne2⟩ :=
      insert_pop_spec p (c.allocate_new_block p) t hwfA ht hAne
    rw [hflA] at hsnd2 hgetself2 hused2 hgetne2
    refine ⟨hwf2, ?_, ?_, ?_, ?_, ?_, ?_, ?_⟩
    · rw [hsz2, hszA]
    · rw [hsnd2]
      omega
    · rw [hsnd2, hcap2, hcapA]
      omega
    · rw [hsnd2]
      exact hgetself2
    · rw [hsnd2]
      exact hused2
    · rw [hcap2, hcapA]
      omega
    · intro j hj hjne
      rw [hgetne2 j (by omega), hgetA j hj]
  · obtain ⟨hwf2, hsz2, hsnd2, hcap2, hgetself2, hused2, hgetne2⟩ :=
      insert_pop_spec p c t hwf ht hb
    obtain ⟨L, hchain, -, -, -⟩ := hwf.free
    obtain ⟨rest, -, hlt, -, -⟩ := hchain.cons_inv hb
    refine ⟨hwf2, hsz2, ?_, ?_, ?_, ?_, ?_, ?_⟩
    · rw [hsnd2]
      exact hb
    · rw [hsnd2, hcap2]
      exact hlt
    · rw [hsnd2]
      exact hgetself2
    · rw [hsnd2]
      exact hused2
    · rw [hcap2]
    · intro j hj hjne
      rw [hsnd2] at hjne
      exact hgetne2 j hjne

/-- Full characterisation of `erase` on a well-formed state under its
precondition: the invariant is preserved, the size decreases by exactly
one, the slot becomes the free-list head, and other slots are untouched. -/
theorem erase_spec (c : CC α) (x : Nat) (hwf : WF c)
    (hx : x < c.capacity_) (hu : c.is_used x = true) :
    WF (c.erase x) ∧
      1 ≤ c.size_ ∧
      (c.erase x).size_ = c.size_ - 1 ∧
      (c.erase x).free_list = x ∧
      (c.erase x).capacity_ = c.capacity_ ∧
      (c.erase x).is_used x = false ∧
      (c.erase x).get_val x = c.free_list ∧
      (∀ j, j ≠ x → (c.erase x).get j = c.get j) := by
  obtain ⟨L, hchain, hnd, hiff, hsz⟩ := hwf.free
  have hbot : bottom < 2 ^ 63 := by
    unfold bottom
    omega
  have hfl63 : c.free_list < 2 ^ 63 := hwf.free_list_lt63
  have hxlen : x < c.all_items.length := by
    rw [hwf.len_eq]
    exact hx
  have hxnotin : x ∉ L := by
    intro hmem
    have := (hiff x hx).mpr hmem
    rw [hu] at this
    simp at this
  have hget_self := erase_get_self c hxlen hfl63
  have hget_ne : ∀ j, j ≠ x → (c.erase x).get j = c.get j :=
    fun j hj => erase_get_ne c (Ne.symm hj)
  have hsize1 : 1 ≤ c.size_ := by
    by_contra hcontra
    have hs0 : c.size_ = 0 := by omega
    have hfull : ∀ i, i < c.capacity_ → i ∈ L :=
      mem_of_nodup_full hnd hchain.mem_lt (by omega)
    have := (hiff x hx).mpr (hfull x hx)
    rw [hu] at this
    simp at this
  have hsize : (c.erase x).size_ = c.size_ - 1 := by
    rw [erase_size]
    have hcap := hwf.cap_le
    have h64 : (2 : Nat) ^ 64 = 18446744073709551616 := by norm_num
    have hslt : c.size_ ≤ c.capacity_ := by omega
    have : bottom = 9223372036854775807 := by
      unfold bottom
      norm_num
    omega
  have hunew : (c.erase x).is_used x = false := by
    rw [is_used_false_iff, hget_self]
    exact static_type_add_FREE _ hfl63
  have hvalnew : (c.erase x).get_val x = c.free_list := by
    unfold get_val
    rw [hget_self]
    exact static_get_val_add_FREE _ hfl63
  refine ⟨⟨?_, ?_, ?_⟩, hsize1, hsize, erase_free_list c x, erase_capacity c x,
    hunew, hvalnew, hget_ne⟩
  · rw [erase_length, hwf.len_eq, erase_capacity]
  · rw [erase_capacity]
    exact hwf.cap_le
  · refine ⟨x :: L, ?_, List.nodup_cons.mpr ⟨hxnotin, hnd⟩, ?_, ?_⟩
    · rw [erase_free_list]
      refine FreeChain.cons ?_ ?_ ?_
      · rw [erase_capacity]
        exact hx
      · exact hunew
      · rw [hvalnew]
        exact FreeChain.frame (erase_capacity c x) hchain
          (fun j hj => hget_ne j (fun he => hxnotin (he ▸ hj)))
    · intro i hi
      rw [erase_capacity] at hi
      by_cases hieq : i = x
      · subst hieq
        rw [hunew]
        simp
      · rw [is_used_congr (hget_ne i hieq)]
        have hold := hiff i hi
        rw [List.mem_cons]
        constructor
        · intro hf
          exact Or.inr (hold.mp hf)
        · intro hm
          rcases hm with he | hm
          · exact absurd he hieq
          · exact hold.mpr hm
    · rw [hsize, erase_capacity, List.length_cons]
      omega

theorem precond_ins_iff (c : CC α) (t : Elt α) :
    precondOp c (Op.ins t) = true ↔
      (t.word &&& mask_type = 0) ∧
        (c.free_list = bottom →
          0 < c.block_size ∧ c.capacity_ + c.block_size ≤ bottom) := by
  unfold precondOp
  simp only [Bool.and_eq_true, Bool.or_eq_true, Bool.not_eq_true', decide_eq_true_eq,
    decide_eq_false_iff_not]
  constructor
  · rintro ⟨h1, h2 | ⟨h3, h4⟩⟩
    · exact ⟨h1, fun hb => absurd hb h2⟩
    · exact ⟨h1, fun _ => ⟨h3, h4⟩⟩
  · rintro ⟨h1, h2⟩
    refine ⟨h1, ?_⟩
    by_cases hb : c.free_list = bottom
    · exact Or.inr (h2 hb)
    · exact Or.inl hb

theorem precond_del_iff (c : CC α) (x : Nat) :
    precondOp c (Op.del x) = true ↔ x < c.capacity_ ∧ c.is_used x = true := by
  unfold precondOp
  simp only [Bool.and_eq_true, decide_eq_true_eq]

theorem wf_applyOp (p : Policy) (c : CC α) (op : Op α) (hwf : WF c)
    (hpre : precondOp c op = true) : WF (applyOp p c op) := by
  cases op with
  | ins t =>
    obtain ⟨h1, h2⟩ := (precond_ins_iff c t).mp hpre
    exact (insert_spec p c t hwf h1 h2).1
  | del x =>
    obtain ⟨h1, h2⟩ := (precond_del_iff c x).mp hpre
    exact (erase_spec c x hwf h1 h2).1

theorem wf_runOps (p : Policy) (c : CC α) (ops : List (Op α)) (hwf : WF c)
    (hsafe : safeRun p c ops = true) : WF (runOps p c ops) := by
  induction ops generalizing c with
  | nil => exact hwf
  | cons op ops ih =>
    rw [safeRun, Bool.and_eq_true] at hsafe
    exact ih _ (wf_applyOp p c op hwf hsafe.1) hsafe.2

theorem safeRun_of_append (p : Policy) (c : CC α) (ops1 ops2 : List (Op α))
    (hsafe : safeRun p c (ops1 ++ ops2) = true) : safeRun p c ops1 = true := by
  induction ops1 generalizing c with
  | nil => rfl
  | cons op ops ih =>
    rw [List.cons_append, safeRun, Bool.and_eq_true] at hsafe
    rw [safeRun, Bool.and_eq_true]
    exact ⟨hsafe.1, ih _ hsafe.2⟩

/-- On a well-formed state, forward iteration enumerates exactly the used
indices. -/
theorem WF.iteration_eq_used {c : CC α} (hwf : WF c) : c.iteration = c.usedIndices := by
  refine iteration_eq_usedIndices c (fun h0 => ?_)
  have := hwf.size_eq_usedIndices
  rw [h0] at this
  exact List.length_eq_zero.mp this.symm

/-- On a well-formed state, `size_` equals the number of indices visited by
forward iteration. -/
theorem WF.size_eq_iteration {c : CC α} (hwf : WF c) :
    c.size_ = c.iteration.length := by
  rw [hwf.iteration_eq_used]
  exact hwf.size_eq_usedIndices

theorem is_used_word_free {c : CC α} {i v : Nat} (hv : v < 2 ^ 63)
    (hw : (c.get i).word = v + 2 ^ 63) : c.is_used i = false := by
  rw [is_used_false_iff]
  have hre : c.get i = (⟨v + 2 ^ 63, (c.get i).payload⟩ : Elt α) := by
    rw [← hw]
  rw [hre]
  exact static_type_add_FREE _ hv

theorem get_val_word {c : CC α} {i v : Nat} (hv : v < 2 ^ 63)
    (hw : (c.get i).word = v + 2 ^ 63) : c.get_val i = v := by
  unfold get_val
  have hre : c.get i = (⟨v + 2 ^ 63, (c.get i).payload⟩ : Elt α) := by
    rw [← hw]
  rw [hre]
  exact static_get_val_add_FREE _ hv

theorem pristine_init (p : Policy) : Pristine 0 (CC.init p : CC α) := by
  refine ⟨rfl, Nat.zero_le _, Nat.zero_le _, rfl, ?_, ?_, ?_⟩
  · intro i hi
    omega
  · intro i h1 h2
    exact absurd h2 (Nat.not_lt_zero i)
  · rfl

theorem Pristine.usedIndices_eq {n : Nat} {c : CC α} (hp : Pristine n c) :
    c.usedIndices = List.range n := by
  obtain ⟨hlen, hn, hcap, hsz, hused, hfreew, hfl⟩ := hp
  have hbot : bottom < 2 ^ 63 := by
    unfold bottom
    omega
  unfold usedIndices
  have hcongr : ∀ i ∈ List.range c.capacity_, c.is_used i = decide (i < n) := by
    intro i hi
    have hic := List.mem_range.mp hi
    by_cases hin : i < n
    · rw [hused i hin]
      simp [hin]
    · have hge : n ≤ i := by omega
      have hv : (if i + 1 = c.capacity_ then bottom else i + 1) < 2 ^ 63 := by
        by_cases he : i + 1 = c.capacity_
        · rw [if_pos he]
          omega
        · rw [if_neg he]
          omega
      rw [is_used_word_free hv (hfreew i hge hic)]
      simp [hin]
  rw [List.filter_congr hcongr]
  exact filter_range_lt _ _ hn

theorem Pristine.iteration_range {n : Nat} {c : CC α} (hp : Pristine n c) :
    c.iteration = List.range n := by
  refine (iteration_eq_usedIndices c (fun h0 => ?_)).trans hp.usedIndices_eq
  rw [hp.usedIndices_eq]
  have hsz : c.size_ = n := hp.2.2.2.1
  rw [h0] at hsz
  rw [← hsz]
  rfl

/-- `insert` on a pristine state with room left: returns `n` and stays
pristine. -/
theorem Pristine.insert_lt (p : Policy) {n : Nat} {c : CC α} (hp : Pristine n c)
    (t : Elt α) (ht : t.word &&& mask_type = 0) (hlt : n < c.capacity_) :
    (c.insert p t).2 = n ∧ Pristine (n + 1) (c.insert p t).1 ∧
      (c.insert p t).1.get n = t ∧
      (∀ j, j ≠ n → (c.insert p t).1.get j = c.get j) ∧
      (c.insert p t).1.capacity_ = c.capacity_ := by
  obtain ⟨hlen, hn, hcap, hsz, hused, hfreew, hfl⟩ := hp
  have hbot : bottom < 2 ^ 63 := by
    unfold bottom
    omega
  have h63 : (2 : Nat) ^ 63 = 9223372036854775808 := by norm_num
  have h64 : (2 : Nat) ^ 64 = 18446744073709551616 := by norm_num
  rw [if_neg (by omega)] at hfl
  have hne : c.free_list ≠ bottom := by
    rw [hfl]
    omega
  have hsnd := insert_nogrow_snd p c t hne
  have hcapeq := insert_nogrow_capacity p c t hne
  have hglen : c.free_list < c.all_items.length := by
    rw [hlen, hfl]
    exact hlt
  have hget_self := insert_nogrow_get_self p c t hne hglen
  rw [hfl] at hsnd hget_self
  have hframe : ∀ j, j ≠ n → (c.insert p t).1.get j = c.get j := by
    intro j hj
    refine insert_nogrow_get_ne p c t hne ?_
    rw [hfl]
    exact Ne.symm hj
  refine ⟨hsnd, ⟨?_, ?_, ?_, ?_, ?_, ?_, ?_⟩, hget_self, hframe, hcapeq⟩
  · rw [insert_nogrow_length p c t hne, hlen, hcapeq]
  · rw [hcapeq]
    omega
  · rw [hcapeq]
    exact hcap
  · rw [insert_nogrow_size p c t hne, hsz]
    apply Nat.mod_eq_of_lt
    unfold bottom at hcap
    omega
  · intro i hi
    by_cases hieq : i = n
    · subst hieq
      rw [is_used_true_iff, hget_self]
      exact static_type_of_msb_clear ht
    · have hi2 : i < n := by omega
      rw [is_used_congr (hframe i hieq), hused i hi2]
  · intro i h1 h2
    rw [hcapeq] at h2 ⊢
    rw [hframe i (by omega)]
    exact hfreew i (by omega) h2
  · rw [insert_nogrow_free_list p c t hne, hfl, hcapeq]
    have hw := hfreew n (le_refl n) hlt
    by_cases he : n + 1 = c.capacity_
    · rw [if_pos he]
      rw [if_pos he] at hw
      have hre : c.get n = (⟨bottom + 2 ^ 63, (c.get n).payload⟩ : Elt α) := by
        rw [← hw]
      rw [hre]
      exact static_get_val_add_FREE _ hbot
    · rw [if_neg he]
      rw [if_neg he] at hw
      have hre : c.get n = (⟨n + 1 + 2 ^ 63, (c.get n).payload⟩ : Elt α) := by
        rw [← hw]
      rw [hre]
      exact static_get_val_add_FREE _ (by omega)

/-- Growing a full pristine state keeps it pristine (same used prefix,
longer ascending free chain). -/
theorem Pristine.alloc (p : Policy) {n : Nat} {c : CC α} (hp : Pristine n c)
    (heq : n = c.capacity_) (hbs : 0 < c.block_size)
    (hcapb : c.capacity_ + c.block_size ≤ bottom) :
    Pristine n (c.allocate_new_block p) ∧
      (∀ j, j < c.capacity_ → (c.allocate_new_block p).get j = c.get j) ∧
      (c.allocate_new_block p).capacity_ = c.capacity_ + c.block_size := by
  obtain ⟨hlen, hn, hcap, hsz, hused, hfreew, hfl⟩ := hp
  have hbot : bottom < 2 ^ 63 := by
    unfold bottom
    omega
  rw [if_pos heq] at hfl
  have hgrow : GrowOk c := ⟨hlen, hbs, by omega, by rw [hfl]; omega⟩
  have hgetold : ∀ j, j < c.capacity_ → (c.allocate_new_block p).get j = c.get j := by
    intro j hj
    exact alloc_get_old_used p c hgrow hj (hused j (by omega))
  have hcapA := alloc_capacity p c hgrow
  refine ⟨⟨?_, ?_, ?_, ?_, ?_, ?_, ?_⟩, hgetold, hcapA⟩
  · rw [alloc_length p c hgrow, hcapA]
  · rw [hcapA]
    omega
  · rw [hcapA]
    exact hcapb
  · rw [alloc_size p c]
    exact hsz
  · intro i hi
    rw [is_used_congr (hgetold i (by omega))]
    exact hused i hi
  · intro i h1 h2
    rw [hcapA] at h2 ⊢
    have hge : c.capacity_ ≤ i := by omega
    rw [alloc_get_new p c hgrow hge h2]
    rw [hfl]
  · rw [alloc_free_list p c hgrow, hcapA]
    rw [if_neg (by omega), heq]

/-- `insert` on a pristine state (growing when full): returns `n`, stores
`t` at slot `n`, leaves previous slots unchanged, and stays pristine. -/
theorem Pristine.insert_step (p : Policy) {n : Nat} {c : CC α} (hp : Pristine n c)
    (t : Elt α) (hpre : precondOp c (Op.ins t) = true) :
    (c.insert p t).2 = n ∧ Pristine (n + 1) (c.insert p t).1 ∧
      (c.insert p t).1.get n = t ∧
      (∀ j, j < n → (c.insert p t).1.get j = c.get j) ∧
      (c.insert p t).1.capacity_ =
        (if n = c.capacity_ then c.capacity_ + c.block_size else c.capacity_) := by
  obtain ⟨ht, hgrowc⟩ := (precond_ins_iff c t).mp hpre
  have hbot : bottom < 2 ^ 63 := by
    unfold bottom
    omega
  by_cases heq : n = c.capacity_
  · have hfl : c.free_list = bottom := by
      have := hp.2.2.2.2.2.2
      rw [if_pos heq] at this
      exact this
    obtain ⟨hbs, hcapb⟩ := hgrowc hfl
    obtain ⟨hpA, hgetA, hcapA⟩ := hp.alloc p heq hbs hcapb
    have hnlt : n < (c.allocate_new_block p).capacity_ := by
      rw [hcapA]
      omega
    have hAne : (c.allocate_new_block p).free_list ≠ bottom := by
      have := hpA.2.2.2.2.2.2
      rw [if_neg (by omega)] at this
      rw [this]
      have hcapb2 := hpA.2.2.1
      omega
    rw [insert_eq_grow p c t hfl hAne]
    obtain ⟨hsnd, hpp, hget, hframe, hcape⟩ := hpA.insert_lt p t ht hnlt
    refine ⟨hsnd, hpp, hget, fun j hj => ?_, ?_⟩
    · rw [hframe j (by omega), hgetA j (by omega)]
    · rw [if_pos heq, hcape, hcapA]
  · have hlt : n < c.capacity_ := by
      have := hp.2.1
      omega
    obtain ⟨hsnd, hpp, hget, hframe, hcape⟩ := hp.insert_lt p t ht hlt
    exact ⟨hsnd, hpp, hget, fun j hj => hframe j (by omega), by rw [if_neg heq, hcape]⟩

theorem pristine_runInserts (p : Policy) (ts : List (Elt α)) :
    ∀ (n : Nat) (c : CC α), Pristine n c → safeRun p c (ts.map Op.ins) = true →
      (runInserts p c ts).2 = List.range' n ts.length ∧
        Pristine (n + ts.length) (runInserts p c ts).1 := by
  induction ts with
  | nil =>
    intro n c hp _
    exact ⟨rfl, by simpa using hp⟩
  | cons t ts ih =>
    intro n c hp hsafe
    rw [List.map_cons, safeRun, Bool.and_eq_true] at hsafe
    obtain ⟨hsnd, hpp, hget, hframe, -⟩ := hp.insert_step p t hsafe.1
    have hsafe2 : safeRun p (c.insert p t).1 (ts.map Op.ins) = true := hsafe.2
    obtain ⟨hrs, hrp⟩ := ih (n + 1) (c.insert p t).1 hpp hsafe2
    constructor
    · show (c.insert p t).2 :: (runInserts p (c.insert p t).1 ts).2 = _
      rw [hsnd, hrs, List.length_cons, List.range'_succ]
    · rw [List.length_cons, (by omega : n + (ts.length + 1) = (n + 1) + ts.length)]
      exact hrp

theorem emplace_eq_insert (p : Policy) (c : CC α) (t : Elt α) :
    c.emplace p t = c.insert p t := rfl

end CC

/-- C2: free-list reuse is LIFO.  For every container state in which
`erase i` is applied to a used index `i` (within a capacity that respects
the index range), an immediately following `insert` returns exactly `i`. -/
theorem C2_lifo_reuse {α : Type} [Inhabited α] (p : Policy) (c : CC α) (i : Nat)
    (t : Elt α) (hi : i < c.capacity_) (hcap : c.capacity_ ≤ bottom)
    (_hu : c.is_used i = true) :
    ((c.erase i).insert p t).2 = i := by
  have hfl : (c.erase i).free_list = i := erase_free_list c i
  rw [insert_nogrow_snd p _ t (by rw [hfl]; omega), hfl]

/-- C3: for every safe sequence of insert and erase operations applied to a
freshly constructed container, at every intermediate state `size_` equals
the number of indices visited by forward iteration, which equals the
number of used slots. -/
theorem C3_size_eq_iteration {α : Type} [Inhabited α] (p : Policy)
    (ops1 ops2 : List (Op α))
    (hsafe : safeRun p (CC.init p : CC α) (ops1 ++ ops2) = true) :
    (runOps p (CC.init p : CC α) ops1).size_ =
        (runOps p (CC.init p : CC α) ops1).iteration.length ∧
      (runOps p (CC.init p : CC α) ops1).size_ =
        (runOps p (CC.init p : CC α) ops1).usedIndices.length := by
  have hwf := wf_runOps p (CC.init p : CC α) ops1 (wf_init p)
    (safeRun_of_append p (CC.init p : CC α) ops1 ops2 hsafe)
  exact ⟨hwf.size_eq_iteration, hwf.size_eq_usedIndices⟩

/-- C4: growth does not disturb existing slots.  After `allocate_new_block`
(triggered when the free list is exhausted), every previously used index is
still used with the same stored value, the free-list link values of
previously free slots are preserved, and the new indices
`capacity_ … capacity_ + block_size - 1` are free. -/
theorem C4_growth_frame {α : Type} [Inhabited α] (p : Policy) (c : CC α)
    (hlen : c.all_items.length = c.capacity_) (hbs : 0 < c.block_size)
    (hcap : c.capacity_ + c.block_size ≤ 2 ^ 63) (hflb : c.free_list = bottom) :
    (c.allocate_new_block p).capacity_ = c.capacity_ + c.block_size ∧
      (∀ i, i < c.capacity_ → c.is_used i = true →
        (c.allocate_new_block p).is_used i = true ∧
          (c.allocate_new_block p).get i = c.get i) ∧
      (∀ i, i < c.capacity_ → c.is_used i = false →
        (c.allocate_new_block p).is_used i = false ∧
          (c.allocate_new_block p).get_val i = c.get_val i) ∧
      (∀ i, c.capacity_ ≤ i → i < c.capacity_ + c.block_size →
        (c.allocate_new_block p).is_used i = false) := by
  have hbot : bottom < 2 ^ 63 := by
    unfold bottom
    omega
  have hgrow : GrowOk c := ⟨hlen, hbs, hcap, by rw [hflb]; omega⟩
  refine ⟨alloc_capacity p c hgrow, ?_, ?_, ?_⟩
  · intro i hi hu
    have hg := alloc_get_old_used p c hgrow hi hu
    rw [is_used_congr hg, hg]
    exact ⟨hu, rfl⟩
  · intro i hi hu
    have hg := alloc_get_old_free p c hgrow hi hu
    constructor
    · refine is_used_word_free (static_get_val_lt (c.get i)) ?_
      rw [hg]
      rfl
    · refine get_val_word (static_get_val_lt (c.get i)) ?_
      rw [hg]
  · intro i h1 h2
    have hg := alloc_get_new p c hgrow h1 h2
    refine is_used_word_free (v := if i + 1 = c.capacity_ + c.block_size
      then c.free_list else i + 1) ?_ (by rw [hg])

    by_cases he : i + 1 = c.capacity_ + c.block_size
    · rw [if_pos he, hflb]
      omega
    · rw [if_neg he]
      omega

/-- C6: a default-constructed `Index` carries the sentinel `bottom` (the
maximum index value divided by two), `is_valid` on it is `false`, and on a
well-formed state (with growth staying in range) neither `insert` nor
`emplace` ever returns `bottom`. -/
theorem C6_invalid_sentinel {α : Type} [Inhabited α] (p : Policy) (c : CC α)
    (t : Elt α) (hwf : WF c)
    (hgrow : c.free_list = bottom →
      0 < c.block_size ∧ c.capacity_ + c.block_size ≤ bottom) :
    Index_default.m_idx = bottom ∧
      Index_default.is_valid = false ∧
      (c.insert p t).2 ≠ bottom ∧
      (c.emplace p t).2 ≠ bottom := by
  have hmain : (c.insert p t).2 ≠ bottom := by
    by_cases hb : c.free_list = bottom
    · obtain ⟨hbs, hcapb⟩ := hgrow hb
      obtain ⟨-, hflA, -, -, -⟩ := wf_alloc p c hwf hb hbs hcapb
      have hAne : (c.allocate_new_block p).free_list ≠ bottom := by
        rw [hflA]
        omega
      rw [insert_eq_grow p c t hb hAne, insert_nogrow_snd p _ t hAne, hflA]
      omega
    · rw [insert_nogrow_snd p c t hb]
      exact hb
  refine ⟨by decide, by decide, hmain, ?_⟩
  rw [emplace_eq_insert]
  exact hmain

/-- C7 (counterexample): on a freshly constructed container, `owns` applied
to the `end()` position (index 0 = `capacity_`) returns `true`, although
that position does not lie within the storage and does not refer to a used
slot; so `owns` is not equivalent to membership-and-usedness alone. -/
theorem C7_counterexample :
    (CC.init (Multiply_by_two_policy 2) : CC Nat).owns 0 = true ∧
      ¬(0 < (CC.init (Multiply_by_two_policy 2) : CC Nat).capacity_ ∧
        (CC.init (Multiply_by_two_policy 2) : CC Nat).is_used 0 = true) := by
  decide

/-- C7 (amended): `owns` returns `true` iff the iterator equals `end()`
(its index is `capacity_`), or its position lies within the storage and
refers to a used slot. -/
theorem C7_owns_amended {α : Type} [Inhabited α] (c : CC α) (m : Nat) :
    c.owns m = true ↔
      (m = c.capacity_ ∨ (m < c.capacity_ ∧ c.is_used m = true)) := by
  unfold owns
  by_cases h1 : m = c.capacity_
  · simp [h1]
  · rw [if_neg h1]
    by_cases h2 : m < c.capacity_
    · rw [if_pos h2]
      simp [h1, h2]
    · rw [if_neg h2]
      simp [h1, h2]

/-- C8: `clear` destroys every used slot and resets the container to the
empty state (capacity 0, size 0, free list `bottom`); on a container in
the empty state it is a no-op, and `clear` followed by any sequence of
insertions behaves exactly like a freshly constructed container. -/
theorem C8_clear {α : Type} [Inhabited α] (p : Policy) (c : CC α)
    (hcap : c.capacity_ = 0) (hsz : c.size_ = 0) (hfl : c.free_list = bottom)
    (hbs : c.block_size = p.first_block_size) (hitems : c.all_items = []) :
    c.clear p = c ∧
      (∀ c2 : CC α, (c2.clear p).capacity_ = 0 ∧ (c2.clear p).size_ = 0 ∧
        (c2.clear p).free_list = bottom ∧
        ∀ i, (c2.clear p).is_used i = (CC.init p : CC α).is_used i) ∧
      (∀ (c2 : CC α) (ts : List (Elt α)),
        runInserts p (c2.clear p) ts = runInserts p (CC.init p : CC α) ts) := by
  refine ⟨?_, fun c2 => ⟨rfl, rfl, rfl, fun i => rfl⟩, fun c2 ts => rfl⟩
  cases c with
  | mk cap sz bs fl items =>
    simp only [clear, CC.mk.injEq]
    simp only at hcap hsz hfl hbs hitems
    exact ⟨hcap.symm, hsz.symm, hbs.symm, hfl.symm, hitems.symm⟩

/-- C9: under the asserted precondition that `x` is a currently-used index
of a well-formed state, `erase x` pushes the slot onto the head of the free
list (linking it to the previous head), marks it unused, and decrements
`size_` by exactly one; the precondition failure branch is unreachable
under the precondition. -/
theorem C9_erase_contract {α : Type} [Inhabited α] (c : CC α) (x : Nat)
    (hwf : WF c) (hx : x < c.capacity_) (hu : c.is_used x = true) :
    (c.erase x).free_list = x ∧
      (c.erase x).get_val x = c.free_list ∧
      (c.erase x).is_used x = false ∧
      1 ≤ c.size_ ∧
      (c.erase x).size_ = c.size_ - 1 ∧
      (c.erase x).size_ + 1 = c.size_ := by
  obtain ⟨-, h1, h2, h3, -, h5, h6, -⟩ := erase_spec c x hwf hx hu
  exact ⟨h3, h6, h5, h1, h2, by omega⟩

/-- C10: `is_used` tracks slot liveness exactly: after `insert` or
`emplace` return an index, that index is used; after `erase x`, `x` is
unused; and insert, erase and growth leave the used-state of every other
(old) slot unchanged. -/
theorem C10_is_used_tracking {α : Type} [Inhabited α] (p : Policy) (c : CC α)
    (t : Elt α) (x j : Nat) (hwf : WF c) (ht : t.word &&& mask_type = 0)
    (hgrow : c.free_list = bottom →
      0 < c.block_size ∧ c.capacity_ + c.block_size ≤ bottom)
    (hx : x < c.capacity_) (hu : c.is_used x = true) :
    (c.insert p t).1.is_used (c.insert p t).2 = true ∧
      (c.emplace p t).1.is_used (c.emplace p t).2 = true ∧
      (c.erase x).is_used x = false ∧
      (j < c.capacity_ → j ≠ (c.insert p t).2 →
        (c.insert p t).1.is_used j = c.is_used j) ∧
      (j ≠ x → (c.erase x).is_used j = c.is_used j) ∧
      (c.free_list = bottom → j < c.capacity_ →
        (c.allocate_new_block p).is_used j = c.is_used j) := by
  obtain ⟨-, -, -, -, -, hins_used, -, hins_frame⟩ := insert_spec p c t hwf ht hgrow
  obtain ⟨-, -, -, -, -, hdel_used, -, hdel_frame⟩ := erase_spec c x hwf hx hu
  refine ⟨hins_used, ?_, hdel_used, ?_, ?_, ?_⟩
  · rw [emplace_eq_insert]
    exact hins_used
  · intro hj hjne
    exact is_used_congr (hins_frame j hj hjne)
  · intro hjne
    exact is_used_congr (hdel_frame j hjne)
  · intro hb hj
    obtain ⟨hbs, hcapb⟩ := hgrow hb
    obtain ⟨-, -, -, -, hget⟩ := wf_alloc p c hwf hb hbs hcapb
    exact is_used_congr (hget j hj)

/-- C5: for every list of insertions applied to a freshly constructed
container with no intervening erasure (with every step satisfying its
precondition), the returned indices are `0, 1, …, k-1` in that order, and
forward iteration then visits exactly `0, 1, …, k-1` ascending — because
`allocate_new_block` threads the newly added slots onto the free list in
descending index order. -/
theorem C5_monotone_fill {α : Type} [Inhabited α] (p : Policy) (ts : List (Elt α))
    (hsafe : safeRun p (CC.init p : CC α) (ts.map Op.ins) = true) :
    (runInserts p (CC.init p : CC α) ts).2 = List.range ts.length ∧
      (runInserts p (CC.init p : CC α) ts).1.iteration = List.range ts.length := by
  obtain ⟨hr, hp⟩ := pristine_runInserts p ts 0 (CC.init p : CC α) (pristine_init p) hsafe
  rw [Nat.zero_add] at hp
  constructor
  · rw [hr, List.range_eq_range']
  · exact hp.iteration_range

/-- C1: starting from a freshly constructed container (capacity 0), the
sequence `insert a`, `insert b`, `erase 0`, `insert c` returns indices
`0`, `1`, `0` with sizes `1`, `2`, then `1` after the erase (slot 0 free)
and `2` after the reinsertion, and forward iteration then visits exactly
indices 0 and 1, holding `c` and `b` respectively. -/
theorem C1_scenario {α : Type} [Inhabited α] (p : Policy) (a b cv : Elt α)
    (ha : a.word &&& mask_type = 0) (hb : b.word &&& mask_type = 0)
    (hc : cv.word &&& mask_type = 0)
    (h2 : 2 ≤ p.first_block_size) (hble : p.first_block_size ≤ bottom) :
    ((CC.init p : CC α).insert p a).2 = 0 ∧
      ((CC.init p : CC α).insert p a).1.size_ = 1 ∧
      (((CC.init p : CC α).insert p a).1.insert p b).2 = 1 ∧
      (((CC.init p : CC α).insert p a).1.insert p b).1.size_ = 2 ∧
      ((((CC.init p : CC α).insert p a).1.insert p b).1.erase 0).size_ = 1 ∧
      ((((CC.init p : CC α).insert p a).1.insert p b).1.erase 0).is_used 0 = false ∧
      (((((CC.init p : CC α).insert p a).1.insert p b).1.erase 0).insert p cv).2 = 0 ∧
      (((((CC.init p : CC α).insert p a).1.insert p b).1.erase 0).insert p cv).1.size_ = 2 ∧
      (((((CC.init p : CC α).insert p a).1.insert p b).1.erase 0).insert p cv).1.iteration
        = [0, 1] ∧
      (((((CC.init p : CC α).insert p a).1.insert p b).1.erase 0).insert p cv).1.get 0 = cv ∧
      (((((CC.init p : CC α).insert p a).1.insert p b).1.erase 0).insert p cv).1.get 1 = b := by
  have hbot : bottom < 2 ^ 63 := by
    unfold bottom
    omega
  have hbot2 : 2 ≤ bottom := le_trans h2 hble
  have h64 : (2 : Nat) ^ 64 = 18446744073709551616 := by norm_num
  have h63 : (2 : Nat) ^ 63 = 9223372036854775808 := by norm_num
  -- step 1: insert a into the fresh container
  have hpre1 : precondOp (CC.init p : CC α) (Op.ins a) = true := by
    rw [precond_ins_iff]
    refine ⟨ha, fun _ => ⟨?_, ?_⟩⟩
    · show 0 < p.first_block_size
      omega
    · show 0 + p.first_block_size ≤ bottom
      omega
  obtain ⟨hr1, hp1, hg1, hfr1, hcap1⟩ := (pristine_init p).insert_step p a hpre1
  have hcap1' : ((CC.init p : CC α).insert p a).1.capacity_ = p.first_block_size := by
    rw [hcap1]
    show (if (0 : Nat) = 0 then 0 + p.first_block_size else 0) = p.first_block_size
    simp
  have hsz1 : ((CC.init p : CC α).insert p a).1.size_ = 1 := hp1.2.2.2.1
  -- step 2: insert b
  have hne1 : ((CC.init p : CC α).insert p a).1.free_list ≠ bottom := by
    have hfl1 := hp1.2.2.2.2.2.2
    rw [hfl1, if_neg (by rw [hcap1']; omega)]
    omega
  have hpre2 : precondOp ((CC.init p : CC α).insert p a).1 (Op.ins b) = true :=
    (precond_ins_iff _ b).mpr ⟨hb, fun hf => absurd hf hne1⟩
  obtain ⟨hr2, hp2, hg2, hfr2, hcap2⟩ := hp1.insert_step p b hpre2
  have hcap2' : (((CC.init p : CC α).insert p a).1.insert p b).1.capacity_
      = p.first_block_size := by
    rw [hcap2, if_neg (by rw [hcap1']; omega), hcap1']
  have hsz2 : (((CC.init p : CC α).insert p a).1.insert p b).1.size_ = 2 := hp2.2.2.2.1
  -- step 3: erase 0
  have hflc2 : (((CC.init p : CC α).insert p a).1.insert p b).1.free_list
      = if 2 = (((CC.init p : CC α).insert p a).1.insert p b).1.capacity_
        then bottom else 2 := hp2.2.2.2.2.2.2
  have hfl63 : (((CC.init p : CC α).insert p a).1.insert p b).1.free_list < 2 ^ 63 := by
    rw [hflc2]
    by_cases he : 2 = (((CC.init p : CC α).insert p a).1.insert p b).1.capacity_
    · rw [if_pos he]
      omega
    · rw [if_neg he]
      omega
  have hlen2 : 0 < (((CC.init p : CC α).insert p a).1.insert p b).1.all_items.length := by
    rw [hp2.1, hcap2']
    omega
  have he_get0 := erase_get_self (((CC.init p : CC α).insert p a).1.insert p b).1
    hlen2 hfl63
  have he_sz : ((((CC.init p : CC α).insert p a).1.insert p b).1.erase 0).size_ = 1 := by
    rw [erase_size, hsz2]
    omega
  have he_used0 : ((((CC.init p : CC α).insert p a).1.insert p b).1.erase 0).is_used 0
      = false :=
    is_used_word_free hfl63 (by rw [he_get0])
  have he_fl : ((((CC.init p : CC α).insert p a).1.insert p b).1.erase 0).free_list = 0 :=
    erase_free_list _ 0
  -- step 4: insert cv
  have hne3 : ((((CC.init p : CC α).insert p a).1.insert p b).1.erase 0).free_list
      ≠ bottom := by
    rw [he_fl]
    omega
  have hi4 : (((((CC.init p : CC α).insert p a).1.insert p b).1.erase 0).insert p cv).2
      = 0 := by
    rw [insert_nogrow_snd p _ cv hne3, he_fl]
  have h4sz : (((((CC.init p : CC α).insert p a).1.insert p b).1.erase 0).insert p cv).1.size_
      = 2 := by
    rw [insert_nogrow_size p _ cv hne3, he_sz]
    omega
  have h4len0 : ((((CC.init p : CC α).insert p a).1.insert p b).1.erase 0).free_list
      < ((((CC.init p : CC α).insert p a).1.insert p b).1.erase 0).all_items.length := by
    rw [he_fl, erase_length]
    exact hlen2
  have h4get0 : (((((CC.init p : CC α).insert p a).1.insert p b).1.erase 0).insert p cv).1.get 0
      = cv := by
    have hg := insert_nogrow_get_self p _ cv hne3 h4len0
    rw [he_fl] at hg
    exact hg
  have h4get_ne : ∀ j, j ≠ 0 →
      (((((CC.init p : CC α).insert p a).1.insert p b).1.erase 0).insert p cv).1.get j
        = ((((CC.init p : CC α).insert p a).1.insert p b).1.erase 0).get j := by
    intro j hj
    refine insert_nogrow_get_ne p _ cv hne3 ?_
    rw [he_fl]
    exact fun he => hj he.symm
  have h4get1 : (((((CC.init p : CC α).insert p a).1.insert p b).1.erase 0).insert p cv).1.get 1
      = b := by
    rw [h4get_ne 1 (by omega), erase_get_ne _ (by omega : (0 : Nat) ≠ 1), hg2]
  have h4cap : (((((CC.init p : CC α).insert p a).1.insert p b).1.erase 0).insert p cv).1.capacity_
      = p.first_block_size := by
    rw [insert_nogrow_capacity p _ cv hne3, erase_capacity, hcap2']
  have h4used : ∀ i ∈ List.range
      (((((CC.init p : CC α).insert p a).1.insert p b).1.erase 0).insert p cv).1.capacity_,
      (((((CC.init p : CC α).insert p a).1.insert p b).1.erase 0).insert p cv).1.is_used i
        = decide (i < 2) := by
    intro i hi
    have hic := List.mem_range.mp hi
    rw [h4cap] at hic
    by_cases hi0 : i = 0
    · subst hi0
      have hu0 : (((((CC.init p : CC α).insert p a).1.insert p b).1.erase 0).insert p cv).1.is_used 0
          = true := by
        rw [is_used_true_iff, h4get0]
        exact static_type_of_msb_clear hc
      rw [hu0]
      decide
    · by_cases hi1 : i = 1
      · subst hi1
        have hu1 : (((((CC.init p : CC α).insert p a).1.insert p b).1.erase 0).insert p cv).1.is_used 1
            = true := by
          rw [is_used_true_iff, h4get1]
          exact static_type_of_msb_clear hb
        rw [hu1]
        decide
      · have hge : 2 ≤ i := by omega
        have hgi : (((((CC.init p : CC α).insert p a).1.insert p b).1.erase 0).insert p cv).1.get i
            = (((CC.init p : CC α).insert p a).1.insert p b).1.get i := by
          rw [h4get_ne i hi0, erase_get_ne _ (fun he => hi0 he.symm)]
        have hw := hp2.2.2.2.2.2.1 i hge (by rw [hcap2']; omega)
        have hv : (if i + 1 = (((CC.init p : CC α).insert p a).1.insert p b).1.capacity_
            then bottom else i + 1) < 2 ^ 63 := by
          by_cases he : i + 1 = (((CC.init p : CC α).insert p a).1.insert p b).1.capacity_
          · rw [if_pos he]
            omega
          · rw [if_neg he]
            omega
        rw [is_used_word_free hv (by rw [hgi, hw])]
        simp
        omega
  have h4usedIdx : (((((CC.init p : CC α).insert p a).1.insert p b).1.erase 0).insert p cv).1.usedIndices
      = [0, 1] := by
    unfold usedIndices
    rw [List.filter_congr h4used, filter_range_lt _ 2 (by rw [h4cap]; omega)]
    decide
  have h4iter : (((((CC.init p : CC α).insert p a).1.insert p b).1.erase 0).insert p cv).1.iteration
      = [0, 1] := by
    rw [iteration_eq_usedIndices _ (fun h0 => ?_), h4usedIdx]
    rw [h0] at h4sz
    exact absurd h4sz (by decide)
  exact ⟨hr1, hsz1, hr2, hsz2, he_sz, he_used0, hi4, h4sz, h4iter, h4get0, h4get1⟩

theorem C1_witness :
    ((CC.init P2 : CC Nat).insert P2 e1).2 = 0 ∧
      ((CC.init P2 : CC Nat).insert P2 e1).1.size_ = 1 ∧
      (((CC.init P2 : CC Nat).insert P2 e1).1.insert P2 e2).2 = 1 ∧
      (((CC.init P2 : CC Nat).insert P2 e1).1.insert P2 e2).1.size_ = 2 ∧
      ((((CC.init P2 : CC Nat).insert P2 e1).1.insert P2 e2).1.erase 0).size_ = 1 ∧
      ((((CC.init P2 : CC Nat).insert P2 e1).1.insert P2 e2).1.erase 0).is_used 0 = false ∧
      (((((CC.init P2 : CC Nat).insert P2 e1).1.insert P2 e2).1.erase 0).insert P2 e3).2 = 0 ∧
      (((((CC.init P2 : CC Nat).insert P2 e1).1.insert P2 e2).1.erase 0).insert P2 e3).1.size_ = 2 ∧
      (((((CC.init P2 : CC Nat).insert P2 e1).1.insert P2 e2).1.erase 0).insert P2 e3).1.iteration
        = [0, 1] ∧
      (((((CC.init P2 : CC Nat).insert P2 e1).1.insert P2 e2).1.erase 0).insert P2 e3).1.get 0 = e3 ∧
      (((((CC.init P2 : CC Nat).insert P2 e1).1.insert P2 e2).1.erase 0).insert P2 e3).1.get 1 = e2 :=
  C1_scenario P2 e1 e2 e3 (by decide) (by decide) (by decide) (by decide) (by decide)

theorem C2_witness :
    ((((CC.init P2 : CC Nat).insert P2 e1).1.erase 0).insert P2 e2).2 = 0 :=
  C2_lifo_reuse P2 ((CC.init P2 : CC Nat).insert P2 e1).1 0 e2
    (by decide) (by decide) (by decide)

theorem C3_witness :
    (runOps P2 (CC.init P2 : CC Nat) [Op.ins e1, Op.ins e2, Op.del 0]).size_ =
        (runOps P2 (CC.init P2 : CC Nat) [Op.ins e1, Op.ins e2, Op.del 0]).iteration.length ∧
      (runOps P2 (CC.init P2 : CC Nat) [Op.ins e1, Op.ins e2, Op.del 0]).size_ =
        (runOps P2 (CC.init P2 : CC Nat) [Op.ins e1, Op.ins e2, Op.del 0]).usedIndices.length :=
  C3_size_eq_iteration P2 [Op.ins e1, Op.ins e2, Op.del 0] [Op.ins e3] (by decide)

theorem C4_witness :
    (cW.allocate_new_block P2).capacity_ = cW.capacity_ + cW.block_size ∧
      (cW.allocate_new_block P2).is_used 0 = true ∧
      (cW.allocate_new_block P2).get 0 = cW.get 0 ∧
      (cW.allocate_new_block P2).is_used 2 = false ∧
      (cW.allocate_new_block P2).is_used 3 = false := by
  obtain ⟨h1, h2, h3, h4⟩ :=
    C4_growth_frame P2 cW (by decide) (by decide) (by decide) (by decide)
  exact ⟨h1, (h2 0 (by decide) (by decide)).1, (h2 0 (by decide) (by decide)).2,
    h4 2 (by decide) (by decide), h4 3 (by decide) (by decide)⟩

theorem C5_witness :
    (runInserts P2 (CC.init P2 : CC Nat) ts5).2 = List.range ts5.length ∧
      (runInserts P2 (CC.init P2 : CC Nat) ts5).1.iteration = List.range ts5.length :=
  C5_monotone_fill P2 ts5 (by decide)

theorem C6_witness :
    Index_default.m_idx = bottom ∧
      Index_default.is_valid = false ∧
      ((CC.init P2 : CC Nat).insert P2 e1).2 ≠ bottom ∧
      ((CC.init P2 : CC Nat).emplace P2 e1).2 ≠ bottom :=
  C6_invalid_sentinel P2 (CC.init P2 : CC Nat) e1 (wf_init P2) (by decide)

theorem C8_witness :
    (CC.init P2 : CC Nat).clear P2 = CC.init P2 ∧
      ((cW.clear P2).capacity_ = 0 ∧ (cW.clear P2).size_ = 0 ∧
        (cW.clear P2).free_list = bottom) ∧
      runInserts P2 (cW.clear P2) ts5 = runInserts P2 (CC.init P2 : CC Nat) ts5 := by
  obtain ⟨h1, h2, h3⟩ := C8_clear P2 (CC.init P2 : CC Nat) rfl rfl rfl rfl rfl
  exact ⟨h1, ⟨(h2 cW).1, (h2 cW).2.1, (h2 cW).2.2.1⟩, h3 cW ts5⟩

theorem C9_witness :
    (cW1.erase 0).free_list = 0 ∧
      (cW1.erase 0).get_val 0 = cW1.free_list ∧
      (cW1.erase 0).is_used 0 = false ∧
      1 ≤ cW1.size_ ∧
      (cW1.erase 0).size_ = cW1.size_ - 1 ∧
      (cW1.erase 0).size_ + 1 = cW1.size_ :=
  C9_erase_contract cW1 0
    (wf_runOps P2 (CC.init P2 : CC Nat) [Op.ins e1] (wf_init P2) (by decide))
    (by decide) (by decide)

theorem C10_witness :
    (cW.insert P2 e3).1.is_used (cW.insert P2 e3).2 = true ∧
      (cW.emplace P2 e3).1.is_used (cW.emplace P2 e3).2 = true ∧
      (cW.erase 0).is_used 0 = false ∧
      (cW.insert P2 e3).1.is_used 1 = cW.is_used 1 ∧
      (cW.erase 0).is_used 1 = cW.is_used 1 ∧
      (cW.allocate_new_block P2).is_used 1 = cW.is_used 1 := by
  obtain ⟨h1, h2, h3, h4, h5, h6⟩ :=
    C10_is_used_tracking P2 cW e3 0 1
      (wf_runOps P2 (CC.init P2 : CC Nat) [Op.ins e1, Op.ins e2] (wf_init P2) (by decide))
      (by decide) (by decide) (by decide) (by decide)
  exact ⟨h1, h2, h3, h4 (by decide) (by decide), h5 (by decide),
    h6 (by decide) (by decide)⟩

end CCWI
